import Mathlib

/-!
Verification development for `utils/netloc/hardware/infiniband/netloc_ib_extract_dats.c`.

The C program reconstructs an InfiniBand fabric topology from per-subnet
discovery dumps: it builds a node/edge/physical-link graph, loads per-switch
routing tables, replays hop-by-hop forwarding decisions to recover
host-to-host paths, and infers host partitions from hostnames.

This file gives a shallow embedding of that program: C strings become
`String`/`List Char`, the uthash hash tables become association lists in
insertion order (uthash iterates in insertion order), utarrays become
`List`s, floats become `ℚ` (exact arithmetic; the float rounding of the C
code is irrelevant to every property treated here, which is decided by
branch structure and by which values are accumulated), and the unbounded
`while` loop of the path replay becomes a fuel-indexed function so that both
termination and divergence are expressible.  Every definition is translated
from the C source; functions named like the C symbols follow them
statement by statement.
-/

set_option maxHeartbeats 1000000

namespace NetlocIB

/-! ## Characters and low-level string helpers -/

/-- The ASCII apostrophe character, written via its code point. -/
def quoteChar : Char := Char.ofNat 39

/-- Character class of `node_find_hostname`'s copy loop:
`(name[i] >= 'a' && name[i] <= 'z') || (name[i] >= '0' && name[i] <= '9') || name[i] == '-'`. -/
def isHostnameChar (c : Char) : Bool :=
  ('a' ≤ c && c ≤ 'z') || ('0' ≤ c && c ≤ '9') || c == '-'

/-- Character class of `proper_partition_name_char`:
`(c >= 'a' && c <= 'z') || (c >= 'A' && c <= 'Z') || c == '-'`. -/
def proper_partition_name_char (c : Char) : Bool :=
  ('a' ≤ c && c ≤ 'z') || ('A' ≤ c && c ≤ 'Z') || c == '-'

/-- Value of a (decimal digit) character list, most significant first;
models the digit-accumulation that `atoi` performs on its leading digit run. -/
def digitsVal (l : List Char) : ℕ :=
  l.foldl (fun acc c => 10 * acc + (c.toNat - 48)) 0

/-- C `atoi` restricted to the strings this program feeds it (no leading
whitespace or sign ever reaches it: every call site passes a string produced
by a `[[:digit:]]+` regex group, possibly followed by other characters):
the value of the leading run of decimal digits, `0` when there is none. -/
def atoiNat (s : String) : ℕ :=
  digitsVal (s.data.takeWhile (fun c => '0' ≤ c && c ≤ '9'))

/-- Little-endian decimal digits, structural in a fuel argument so that the
definition reduces inside the kernel; `fuel ≥ n` makes the fuel irrelevant. -/
def natDigitsRevFuel : ℕ → ℕ → List ℕ
  | _, 0 => []
  | 0, _ + 1 => []
  | fuel + 1, n + 1 => ((n + 1) % 10) :: natDigitsRevFuel fuel ((n + 1) / 10)

/-- Little-endian decimal digits of `n` (empty for `0`); used to model the
`%u` rendering done by `asprintf` for anonymous hostnames. -/
def natDigitsRev (n : ℕ) : List ℕ := natDigitsRevFuel n n

/-- Digit value to ASCII digit character. -/
def digitCh (d : ℕ) : Char := Char.ofNat (48 + d)

/-- ASCII digit character back to its value. -/
def chDigit (c : Char) : ℕ := c.toNat - 48

/-- Decimal rendering of a natural number as characters (the effect of
`%u` in `asprintf`). -/
def natToChars (n : ℕ) : List Char :=
  if n = 0 then [digitCh 0] else ((natDigitsRev n).map digitCh).reverse

/-- Little-endian digit list back to a natural number. -/
def ofDigitsRev : List ℕ → ℕ
  | [] => 0
  | d :: rest => d + 10 * ofDigitsRev rest

/-- Decoder for `natToChars`, used to prove it injective. -/
def natFromChars (l : List Char) : ℕ :=
  ofDigitsRev ((l.map chDigit).reverse)

/-! ## `compute_gbits` (netloc_ib_extract_dats.c:132-173)

The C function reads

```
if (strcmp(speed, "SDR")) { rate = 2.5; encoding = 8.0/10; }
else if (strcmp(speed, "DDR")) { rate = 5; encoding = 8.0/10; }
...
else { return 1; }
```

`strcmp` returns zero exactly on equal strings, so each guard is *true when
the strings differ*; the translation below keeps those inverted guards
(`speed ≠ "SDR"` etc.) exactly as the code executes them.  The width lane
count comes from `regexec` of `([[:digit:]]*)x` (which succeeds iff the
width string contains an `x`, since the digit group may be empty) followed
by `atoi(width)`. -/

/-- Shallow embedding of `compute_gbits`, with the source's inverted
`strcmp` guards preserved. Floats are modelled by exact rationals. -/
def compute_gbits (speed width : String) : ℚ :=
  let table : Option (ℚ × ℚ) :=
    if speed ≠ "SDR" then some (5/2, 8/10)
    else if speed ≠ "DDR" then some (5, 8/10)
    else if speed ≠ "QDR" then some (10, 8/10)
    else if speed ≠ "FDR" then some (225/16, 64/66)
    else if speed ≠ "FDR10" then some (10, 64/66)
    else if speed ≠ "EDR" then some (25, 64/66)
    else none
  match table with
  | none => 1
  | some (rate, encoding) =>
      let gbPerX := rate * encoding
      let x : ℕ := if width.data.contains 'x' then atoiNat width else 0
      (x : ℚ) * gbPerX

/-- The bandwidth table as the specification words it: rate and encoding
efficiency selected by *equality* with the speed code
{SDR=2.5, DDR=5, QDR=10, FDR=14.0625, FDR10=10, EDR=25}, efficiency 8/10
for SDR/DDR/QDR and 64/66 for FDR/FDR10/EDR, multiplied by the lane count
(leading integer of the width field), sentinel 1 for unknown speed codes. -/
def spec_gbits (speed width : String) : ℚ :=
  let table : Option (ℚ × ℚ) :=
    if speed = "SDR" then some (5/2, 8/10)
    else if speed = "DDR" then some (5, 8/10)
    else if speed = "QDR" then some (10, 8/10)
    else if speed = "FDR" then some (225/16, 64/66)
    else if speed = "FDR10" then some (10, 64/66)
    else if speed = "EDR" then some (25, 64/66)
    else none
  match table with
  | none => 1
  | some (rate, encoding) => (atoiNat width : ℚ) * (rate * encoding)

/-! ## `node_find_hostname` (netloc_ib_extract_dats.c:51-76)

The C loop copies characters of `name` (the description, advanced past one
leading apostrophe when present) while `i < max_size` and the character is
in `[a-z0-9-]`, where `max_size = strlen(description)` is measured *before*
the apostrophe skip.  When the apostrophe was skipped the loop may read one
character past the shifted string's content, which is the NUL terminator and
fails the class test, so the bound behaves exactly like a `takeWhile`; the
index bound is nevertheless kept in the translation. -/

/-- The copy loop of `node_find_hostname`: scan up to `bound` characters,
stopping at the terminator (end of list) or the first non-hostname
character. -/
def scanHost : ℕ → List Char → List Char
  | 0, _ => []
  | _ + 1, [] => []
  | b + 1, c :: rest => if isHostnameChar c then c :: scanHost b rest else []

/-- Shallow embedding of `node_find_hostname`. -/
def node_find_hostname (desc : String) : String :=
  let maxSize := desc.data.length
  let name := if desc.data.head? = some quoteChar then desc.data.tail else desc.data
  String.mk (scanHost maxSize name)

/-! ## `node_find_partition_name` (netloc_ib_extract_dats.c:266-295)

Copy loop over the hostname while `proper_partition_name_char`, then a
second loop truncating trailing `'-'` characters. -/

/-- The trailing-hyphen strip loop (`while (i > 0 && partition[i-1] == '-')`). -/
def stripTrailingHyphens (l : List Char) : List Char :=
  (l.reverse.dropWhile (· == '-')).reverse

/-- Shallow embedding of `node_find_partition_name`. -/
def node_find_partition_name (hostname : String) : String :=
  String.mk (stripTrailingHyphens (hostname.data.takeWhile proper_partition_name_char))

/-- The hostname synthesized for a HOST whose scanned hostname is empty:
`asprintf(&node->hostname, "ANONYMOUS-%u", unknown_node_id)`
(netloc_ib_extract_dats.c:103). -/
def anonHostname (k : ℕ) : String :=
  String.mk ("ANONYMOUS-".data ++ natToChars k)

/-! ## Data model

uthash tables become association lists in insertion order (uthash's
`HASH_ITER` iterates in insertion order), utarrays become `List`s, C
pointers to nodes become canonical-identifier `String`s, and a physical
link's `other_link` pointer becomes the coordinates (node identifier,
index in that node's port-indexed collection) of the link it points at.
Fields that no treated claim touches and that this pass of the program
never reads (`reverse_edge`, `subedges`, `subnodes` — all set only by the
later `set_reverse_edges`/`find_similar_nodes` passes) are omitted.
The per-entity `partitions` bit arrays are modelled as a separate list of
(entity, partition) marks produced by the partition-propagation function:
a bit being 1 is membership of the corresponding pair in that list. -/

/-- `netloc_node_type_decode`: "CA" gives a HOST, "SW" a SWITCH. -/
inductive NodeType
  | host
  | switch
deriving DecidableEq

/-- `utils_physical_link_t`.  `ports` is the 1-based (source port,
destination port) pair; `dest = none` models both a NULL `dest` pointer
and the zero-filled gap elements `utarray_resize` creates. -/
structure PhysLink where
  int_id : ℕ
  ports : ℕ × ℕ
  width : String
  speed : String
  gbits : ℚ
  dest : Option String
  description : String
  parent_node : String
  parent_edge : String
  other_link : Option (String × ℕ)
deriving DecidableEq

/-- The zero-filled element `utarray_resize` produces for skipped slots
(all-zero struct: NULL pointers become `none`/empty strings). -/
def zeroLink : PhysLink :=
  { int_id := 0, ports := (0, 0), width := "", speed := "", gbits := 0,
    dest := none, description := "", parent_node := "", parent_edge := "",
    other_link := none }

/-- `utils_edge_t` (keyed by `dest` in its owner's edge hash). -/
structure UEdge where
  dest : String
  total_gbits : ℚ
  physical_link_idx : List ℕ
deriving DecidableEq

/-- `utils_node_t`.  `main_partition` is kept out of the record and
modelled as the assignment function computed by the partition-detection
phase, which is the only phase that writes or reads it. -/
structure UNode where
  physical_id : String
  logical_id : ℕ
  typ : NodeType
  description : String
  hostname : String
  edges : List UEdge
  physical_links : List PhysLink
deriving DecidableEq

/-- `HASH_FIND_STR` on the node table. -/
def lookupNode (env : List UNode) (id : String) : Option UNode :=
  env.find? (fun n => n.physical_id == id)

/-- `HASH_FIND_STR` on a node's edge table. -/
def lookupEdge (n : UNode) (dest : String) : Option UEdge :=
  n.edges.find? (fun e => e.dest == dest)

/-- `utarray_eltptr(&node->physical_links, i)` after a node lookup. -/
def getLink (env : List UNode) (id : String) (i : ℕ) : Option PhysLink :=
  (lookupNode env id).bind (fun n => n.physical_links.get? i)

/-- `asprintf(&id, "%.4s:%.4s:%.4s:%.4s", guid, guid+4, guid+8, guid+12)`:
the canonical colon-grouped identifier derived from a 16-hex-character
guid. -/
def canonicalId (guid : String) : String :=
  let g := guid.data
  String.mk (g.take 4 ++ ':' :: (g.drop 4).take 4 ++ ':' :: (g.drop 8).take 4
    ++ ':' :: (g.drop 12).take 4)

/-! ## Topology ingestion (`get_node`, `read_discover`'s record loop) -/

/-- Mutable state of one `read_discover` run: the node table plus the two
counters (`static unsigned unknown_node_id`, which the C keeps
process-wide, and the per-run `global_link_idx`). -/
structure IngestState where
  nodes : List UNode
  unknown_node_id : ℕ
  global_link_idx : ℕ
deriving DecidableEq

/-- `get_node` (netloc_ib_extract_dats.c:78-118): find the node by
canonical identifier; when absent, create it, derive its hostname, and,
for a HOST whose derived hostname is empty, synthesize an
`ANONYMOUS-<counter>` hostname and bump the counter. Returns the (possibly
unchanged) state and the canonical identifier of the resolved node. -/
def get_node (st : IngestState) (typ : NodeType) (lid guid desc : String) :
    IngestState × String :=
  let id := canonicalId guid
  match lookupNode st.nodes id with
  | some _ => (st, id)
  | none =>
      let hn := node_find_hostname desc
      let anon : Bool := typ == NodeType.host && hn == ""
      let hostname := if anon then anonHostname st.unknown_node_id else hn
      let counter := if anon then st.unknown_node_id + 1 else st.unknown_node_id
      let node : UNode :=
        { physical_id := id, logical_id := atoiNat lid, typ := typ,
          description := desc, hostname := hostname, edges := [],
          physical_links := [] }
      ({ st with nodes := st.nodes ++ [node], unknown_node_id := counter }, id)

/-- One "linked port" discovery record, after lexing (the file formats are
input records once lexically matched; `src_desc`/`dest_desc` are the two
halves the description regex splits off). -/
structure LinkedRec where
  src_type : NodeType
  src_lid : String
  src_port_id : String
  src_guid : String
  width : String
  speed : String
  dest_type : NodeType
  dest_lid : String
  dest_port_id : String
  dest_guid : String
  link_desc : String
  src_desc : String
  dest_desc : String
deriving DecidableEq

/-- Replace the node with identifier `id` by `f` of it (pointer mutation
of a hash-table entry). -/
def updateNode (env : List UNode) (id : String) (f : UNode → UNode) : List UNode :=
  env.map (fun n => if n.physical_id == id then f n else n)

/-- Replace the edge keyed `dest` by `f` of it. -/
def updateEdge (edges : List UEdge) (dest : String) (f : UEdge → UEdge) : List UEdge :=
  edges.map (fun e => if e.dest == dest then f e else e)

/-- The port-indexed insertion of netloc_ib_extract_dats.c:837-845: when
`port_idx` is past the end, `utarray_insert` first zero-fills up to
`port_idx` and appends; otherwise the existing element is overwritten in
place by `memcpy`. -/
def setLinkAt (links : List PhysLink) (idx : ℕ) (l : PhysLink) : List PhysLink :=
  if idx + 1 > links.length then links ++ List.replicate (idx - links.length) zeroLink ++ [l]
  else links.set idx l

/-- The physical link one linked-port record constructs
(netloc_ib_extract_dats.c:822-835), given the resolved endpoint
identifiers and the current value of `global_link_idx`. -/
def recordLink (r : LinkedRec) (sid did : String) (g : ℕ) : PhysLink :=
  { int_id := g,
    ports := (atoiNat r.src_port_id, atoiNat r.dest_port_id),
    width := r.width, speed := r.speed,
    gbits := compute_gbits r.speed r.width, dest := some did,
    description := r.link_desc, parent_node := sid, parent_edge := did,
    other_link := none }

/-- The edge lookup/creation of the `have_peer` branch
(netloc_ib_extract_dats.c:807-819): find the edge keyed `did` on node
`sid`, creating an empty one when absent. -/
def add_edge_if_missing (st : IngestState) (sid did : String) : IngestState :=
  if ((lookupNode st.nodes sid).bind (fun n => lookupEdge n did)).isSome then st
  else
    { st with nodes := updateNode st.nodes sid (fun n =>
        { n with edges := n.edges ++
            [{ dest := did, total_gbits := 0, physical_link_idx := [] }] }) }

/-- The link-construction tail of the `have_peer` branch
(netloc_ib_extract_dats.c:822-847): build the physical link with the
current `global_link_idx` (then bump it), store it at index
(source port − 1) of the source node's collection, push that index onto
the edge and accumulate the link's bandwidth into the edge aggregate. -/
def add_link (st : IngestState) (r : LinkedRec) (sid did : String) : IngestState :=
  let port_idx := atoiNat r.src_port_id - 1
  let link : PhysLink := recordLink r sid did st.global_link_idx
  { st with
    global_link_idx := st.global_link_idx + 1,
    nodes := updateNode st.nodes sid (fun n =>
      { n with
        physical_links := setLinkAt n.physical_links port_idx link,
        edges := updateEdge n.edges did (fun e =>
          { e with total_gbits := e.total_gbits + compute_gbits r.speed r.width,
                   physical_link_idx := e.physical_link_idx ++ [port_idx] }) }) }

/-- Ingestion of one linked-port record (the `have_peer` branch of
`read_discover`'s loop, netloc_ib_extract_dats.c:795-856): resolve or
create both nodes, resolve or create the edge keyed by the destination
identifier on the source node, then construct and store the physical link.

The C computes `port_idx` as an `unsigned int`; a source port of 0 would
wrap around and make `utarray_insert` fail allocation, so this model (like
every input the surrounding regex `[[:digit:]]+` can produce together with
real dumps) is only claimed about for source ports ≥ 1, where `ℕ`
subtraction agrees with the C. -/
def process_linked (st : IngestState) (r : LinkedRec) : IngestState :=
  let res1 := get_node st r.src_type r.src_lid r.src_guid r.src_desc
  let res2 := get_node res1.1 r.dest_type r.dest_lid r.dest_guid r.dest_desc
  add_link (add_edge_if_missing res2.1 res1.2 res2.2) r res1.2 res2.2

/-! ## The other-link post-pass (`find_other_physical_link` and
netloc_ib_extract_dats.c:882-907) -/

/-- `find_other_physical_link`: the element of the destination node's
port-indexed collection at index (destination port − 1), as coordinates;
`none` models the NULL pointer `utarray_eltptr` yields out of range (a
destination port of 0 wraps around to a huge unsigned index, which is also
out of range). -/
def find_other_physical_link (env : List UNode) (l : PhysLink) : Option (String × ℕ) :=
  match l.dest with
  | none => none
  | some d =>
      if l.ports.2 = 0 then none
      else
        match lookupNode env d with
        | none => none
        | some m => if l.ports.2 - 1 < m.physical_links.length
                    then some (d, l.ports.2 - 1) else none

/-- The post-pass after all records of a subnet are ingested: every
physical link with a resolved destination gets its `other_link` set.
(`node->subnodes` is NULL for every node at this point in the C — subnodes
are only created by the later `find_similar_nodes` pass — so only the
plain branch of the loop is modelled.) -/
def resolve_other_links (env : List UNode) : List UNode :=
  env.map (fun n =>
    { n with physical_links := n.physical_links.map (fun l =>
        match l.dest with
        | none => l
        | some _ => { l with other_link := find_other_physical_link env l }) })

/-! ## The per-line dispatch of `read_discover` (netloc_ib_extract_dats.c:720-864)

A line of a discovery file, as the three regexes of `read_discover`
classify it.  Lexing is out of scope: a line is already one of `DR`
comment, linked-port record, unlinked-port record, or unrecognized. -/

/-- One lexically classified discovery-file line. -/
inductive DiscLine
  | dr
  | linked (r : LinkedRec)
  | unlinked (src_type : NodeType) (src_lid src_port_id src_guid : String)
  | unrecognized
deriving DecidableEq

/-- The diagnostics the two readers emit on their record loops. -/
inductive LogEvent
  | warnLineNotRecognized
  | errMalformedRouteFile
deriving DecidableEq

/-- State of a `read_discover` run: the ingestion state plus the emitted
diagnostics, in order. -/
structure DiscoverState where
  ingest : IngestState
  log : List LogEvent
deriving DecidableEq

/-- One iteration of `read_discover`'s `getline` loop: DR lines are
ignored, linked records are ingested, unlinked records are parsed only to
confirm the port and otherwise discarded, and an unrecognized line is
logged (`printf("Warning: line not recognized: ...")`) and skipped. -/
def read_discover_line (st : DiscoverState) (l : DiscLine) : DiscoverState :=
  match l with
  | .dr => st
  | .linked r => { st with ingest := process_linked st.ingest r }
  | .unlinked _ _ _ _ => st
  | .unrecognized => { st with log := st.log ++ [.warnLineNotRecognized] }

/-- The whole record loop of one discovery file. -/
def read_discover_lines (st : DiscoverState) (lines : List DiscLine) : DiscoverState :=
  lines.foldl read_discover_line st

/-- `read_discover` on one file: the record loop followed by the
other-link post-pass. -/
def read_discover (st : DiscoverState) (lines : List DiscLine) : DiscoverState :=
  let st1 := read_discover_lines st lines
  { st1 with ingest := { st1.ingest with nodes := resolve_other_links st1.ingest.nodes } }

/-- The empty initial state of a run. -/
def initDiscover : DiscoverState :=
  { ingest := { nodes := [], unknown_node_id := 0, global_link_idx := 0 }, log := [] }

/-! ## Routing table store (`read_routes`, netloc_ib_extract_dats.c:912-1020) -/

/-- `route_source_t`: one switch's forwarding table, destination canonical
identifier to egress port, in insertion order. -/
structure RouteTable where
  physical_id : String
  dest : List (String × ℕ)
deriving DecidableEq

/-- `HASH_FIND_STR` on the route store. -/
def lookupRouteTable (routes : List RouteTable) (id : String) : Option RouteTable :=
  routes.find? (fun t => t.physical_id == id)

/-- Replace the table keyed `id` by `f` of it. -/
def updateRouteTable (routes : List RouteTable) (id : String) (f : RouteTable → RouteTable) :
    List RouteTable :=
  routes.map (fun t => if t.physical_id == id then f t else t)

/-- One lexically classified line of a routing-table file: the
`Unicast lids ... guid 0x<16-hex>` header, an
`0x<lid> <port> : (... portguid 0x<16-hex>)` entry, or anything else. -/
inductive RouteLine
  | header (guid : String)
  | entry (dest_lid port_str dest_guid : String)
  | unrecognized
deriving DecidableEq

/-- State of reading one routing file: the store, the `route` cursor
(NULL at the start of each file), whether the loop was left by the
malformed-file `break`, and the diagnostics. -/
structure RoutesFileState where
  routes : List RouteTable
  current : Option String
  stopped : Bool
  log : List LogEvent
deriving DecidableEq

/-- One iteration of `read_routes`' `getline` loop: a header finds or
creates the switch's table and makes it current; an entry line with no
current table logs `Malformed route file` and `break`s out of the loop
(modelled by the `stopped` flag, after which remaining lines of the file
are not processed); an entry line otherwise appends to the current table;
any other line is skipped with no diagnostic. -/
def read_routes_line (st : RoutesFileState) (l : RouteLine) : RoutesFileState :=
  if st.stopped then st
  else
    match l with
    | .header guid =>
        let id := canonicalId guid
        match lookupRouteTable st.routes id with
        | some _ => { st with current := some id }
        | none =>
            { st with routes := st.routes ++ [{ physical_id := id, dest := [] }],
                      current := some id }
    | .entry _ port_str dest_guid =>
        match st.current with
        | none => { st with stopped := true, log := st.log ++ [.errMalformedRouteFile] }
        | some id =>
            { st with routes := updateRouteTable st.routes id (fun t =>
                { t with dest := t.dest ++ [(canonicalId dest_guid, atoiNat port_str)] }) }
    | .unrecognized => st

/-- The record loop of one routing file, starting from a given store with
a fresh NULL cursor. -/
def read_routes_file (routes : List RouteTable) (lines : List RouteLine) : RoutesFileState :=
  lines.foldl read_routes_line
    { routes := routes, current := none, stopped := false, log := [] }

/-! ## Path reconstruction (`build_paths`, netloc_ib_extract_dats.c:175-257)

The C `while (node_cur != node_dest)` loop carries no cycle detection, so
the model indexes it by fuel; `outOfFuel` means the loop is still running
after that many iterations.  `crashed` stands for the two abnormal ends
the C has (a failed `assert(link)` when `utarray_eltptr` is out of range,
and the dereference of the NULL `dest` of a zero-filled gap element on the
following iteration). -/

/-- Result of replaying one (source, destination) pair. -/
inductive WalkRes
  | completed (links : List PhysLink)
  | incomplete
  | crashed
  | outOfFuel
deriving DecidableEq

/-- The two routing lookups of one loop iteration
(`HASH_FIND_STR(routes, id_cur, ...)` then
`HASH_FIND_STR(route_source->dest, id_dest, ...)`); `none` for either
miss. -/
def lookupRoutePort (routes : List RouteTable) (cur dst : String) : Option ℕ :=
  match lookupRouteTable routes cur with
  | none => none
  | some t => (t.dest.find? (fun p => p.1 == dst)).map (fun p => p.2)

/-- `utarray_eltptr(&node_cur->physical_links, port-1)`; a port of 0 wraps
to a huge unsigned index and is out of range. -/
def routedLink (env : List UNode) (cur : String) (port : ℕ) : Option PhysLink :=
  if port = 0 then none else getLink env cur (port - 1)

/-- The replay loop, fuel-indexed.  `acc` holds the links found so far in
reverse (the C pushes onto `found_links`). -/
def walkAux (env : List UNode) (routes : List RouteTable) (dst : String) :
    ℕ → String → List PhysLink → WalkRes
  | 0, _, _ => .outOfFuel
  | fuel + 1, cur, acc =>
      if cur = dst then .completed acc.reverse
      else
        match lookupRoutePort routes cur dst with
        | none => .incomplete
        | some port =>
            match routedLink env cur port with
            | none => .crashed
            | some link =>
                match link.dest with
                | none => .crashed
                | some nxt => walkAux env routes dst fuel nxt (link :: acc)

/-- The first hop chosen for a source: the physical link whose index is
the front of the first edge's `physical_link_idx`
(netloc_ib_extract_dats.c:209-213). -/
def first_link (n : UNode) : Option PhysLink :=
  match n.edges.head? with
  | none => none
  | some e =>
      match e.physical_link_idx.head? with
      | none => none
      | some i => n.physical_links.get? i

/-- Replay of one ordered (source, destination) pair: first hop from the
source's first edge, then the routing loop. -/
def build_one_path (env : List UNode) (routes : List RouteTable) (src : UNode)
    (dst : String) (fuel : ℕ) : WalkRes :=
  match first_link src with
  | none => .crashed
  | some l =>
      match l.dest with
      | none => .crashed
      | some n0 => walkAux env routes dst fuel n0 [l]

/-- Same, with the source given by identifier. -/
def build_one_path_id (env : List UNode) (routes : List RouteTable)
    (srcId dst : String) (fuel : ℕ) : WalkRes :=
  match lookupNode env srcId with
  | none => .crashed
  | some n => build_one_path env routes n dst fuel

/-- The HOST nodes with at least one outgoing edge — exactly the sources
`build_paths` iterates (the two `continue`s at
netloc_ib_extract_dats.c:180-184). -/
def hostsWithEdges (env : List UNode) : List UNode :=
  env.filter (fun n => n.typ == NodeType.host && !n.edges.isEmpty)

/-- `build_paths`: one entry per HOST source with an edge, inserted before
any destination pair is attempted; under it, one entry per HOST
destination whose replay completed (an incomplete pair records nothing). -/
def build_paths (env : List UNode) (routes : List RouteTable) (fuel : ℕ) :
    List (String × List (String × List PhysLink)) :=
  (hostsWithEdges env).map (fun src =>
    (src.physical_id,
      (env.filter (fun d => d.typ == NodeType.host && !(d.physical_id == src.physical_id))).filterMap
        (fun d =>
          match build_one_path env routes src d.physical_id fuel with
          | .completed links => some (d.physical_id, links)
          | _ => none)))

/-- The destinations of a link sequence, in order — the nodes the replay
visits after the source. -/
def destsOf (links : List PhysLink) : List String :=
  links.filterMap (fun l => l.dest)

/-- The node sequence a recorded pair visits (source first), `none` when
the pair did not complete; used to state visit properties concretely. -/
def walkVisited (env : List UNode) (routes : List RouteTable) (srcId dst : String)
    (fuel : ℕ) : Option (List String) :=
  match build_one_path_id env routes srcId dst fuel with
  | .completed links => some (srcId :: destsOf links)
  | _ => none

/-- `build_one_path_id` diverges at this pair: every fuel runs out. The
C's `while` loop never terminates there. -/
def divergesAt (env : List UNode) (routes : List RouteTable) (srcId dst : String) : Prop :=
  ∀ fuel, build_one_path_id env routes srcId dst fuel = .outOfFuel

/-- Declarative form of the replay loop's successful runs: `Reaches env
routes dst cur links` holds when, starting the loop at `cur`, the routed
lookups produce exactly `links` and end at `dst`.  Each constructor is one
loop iteration; every choice in it is a function of the current node, so
the relation is deterministic. -/
inductive Reaches (env : List UNode) (routes : List RouteTable) (dst : String) :
    String → List PhysLink → Prop
  | done : Reaches env routes dst dst []
  | step {cur port link nxt links} :
      cur ≠ dst →
      lookupRoutePort routes cur dst = some port →
      routedLink env cur port = some link →
      link.dest = some nxt →
      Reaches env routes dst nxt links →
      Reaches env routes dst cur (link :: links)

/-- One iteration of the loop viewed as a step function on the current
node: `none` when the loop stops (destination reached, missing route, or
crash), `some nxt` when it advances. -/
def nextCur (env : List UNode) (routes : List RouteTable) (dst cur : String) :
    Option String :=
  if cur = dst then none
  else
    match lookupRoutePort routes cur dst with
    | none => none
    | some port =>
        match routedLink env cur port with
        | none => none
        | some link => link.dest

/-- The current node after `t` further iterations, `none` when the loop
has stopped meanwhile; `runsAt t cur = some c` says the loop is still
running with current node `c` after `t` iterations from `cur`. -/
def runsAt (env : List UNode) (routes : List RouteTable) (dst : String) :
    ℕ → String → Option String
  | 0, cur => some cur
  | t + 1, cur =>
      match nextCur env routes dst cur with
      | none => none
      | some nxt => runsAt env routes dst t nxt

/-! ## Partition detection
(`netloc_network_explicit_find_partitions`, netloc_ib_extract_dats.c:298-366)

The C collects one candidate partition per HOST (each seeded with that
host), then sweeps: the outer loop takes the first surviving candidate,
the inner loop concatenates every later candidate with the same name into
it and NULLs it out (assigning both hosts the same compacted index), and
the survivor gets the next index.  NULLing a candidate removes it from
all later outer iterations, so the sweep is exactly this recursion: emit
the first remaining entry's group (itself plus every later host with the
same name, in order), continue on the entries with a different name. -/

/-- `utils_partition_t`: a partition name and its member HOST identifiers
in merge order. -/
structure PartitionGroup where
  name : String
  member_ids : List String
deriving DecidableEq

/-- The merge sweep, structural in a fuel argument (the recursion consumes
a sublist of `rest`, and the list length bounds the iterations). -/
def sweepGroupsFuel : ℕ → List (String × String) → List PartitionGroup
  | 0, _ => []
  | _ + 1, [] => []
  | fuel + 1, (h, nm) :: rest =>
      { name := nm,
        member_ids := h :: (rest.filter (fun x => x.2 == nm)).map (fun x => x.1) } ::
        sweepGroupsFuel fuel (rest.filter (fun x => !(x.2 == nm)))

/-- The merge sweep on a (host identifier, candidate name) list. -/
def sweepGroups (l : List (String × String)) : List PartitionGroup :=
  sweepGroupsFuel l.length l

/-- The (host identifier, candidate partition name) pairs in node-table
iteration order — the first collection loop of
`netloc_network_explicit_find_partitions`. -/
def hostEntries (env : List UNode) : List (String × String) :=
  (env.filter (fun n => n.typ == NodeType.host)).map
    (fun n => (n.physical_id, node_find_partition_name n.hostname))

/-- `netloc_network_explicit_find_partitions`: the final partition array. -/
def netloc_network_explicit_find_partitions (env : List UNode) : List PartitionGroup :=
  sweepGroups (hostEntries env)

/-- The `main_partition` field after detection: the index of the group the
host was merged into, −1 for identifiers no group contains (every
non-HOST node keeps its initial −1). -/
def main_partition_of (groups : List PartitionGroup) (id : String) : ℤ :=
  match groups.findIdx? (fun g => g.member_ids.contains id) with
  | some p => (p : ℤ)
  | none => -1

/-! ## Partition propagation
(`netloc_network_explicit_set_partitions`, netloc_ib_extract_dats.c:368-426)

The `partitions` bit arrays are modelled as the list of (entity,
partition index) pairs the function sets to 1; an entity's bit for `p` is
1 exactly when the pair is in the list.  Physical links are referred to
by value (the C marks through pointers into the port collections; a
path's link list holds those pointers, and the value determines every
field the claims compare), edges by (owner node, destination key), nodes
by identifier. -/

/-- Reference to a marked entity. -/
inductive EntityRef
  | node (id : String)
  | edge (owner dest : String)
  | plink (l : PhysLink)
deriving DecidableEq

/-- Marks from one path link (netloc_ib_extract_dats.c:401-422): the link,
its parent node and parent edge; then, when `other_link` is resolved, the
link it points at and that link's parent node and edge. -/
def linkMarks (env : List UNode) (p : ℤ) (l : PhysLink) : List (EntityRef × ℤ) :=
  [(.plink l, p), (.node l.parent_node, p), (.edge l.parent_node l.parent_edge, p)] ++
    match l.other_link with
    | none => []
    | some c =>
        match getLink env c.1 c.2 with
        | none => []
        | some m => [(.plink m, p), (.node m.parent_node, p),
                     (.edge m.parent_node m.parent_edge, p)]

/-- The initialization loop (netloc_ib_extract_dats.c:376-387): every node
whose `main_partition` is not −1 gets that bit set; all edge and link
arrays start zeroed. -/
def init_marks (env : List UNode) (groups : List PartitionGroup) : List (EntityRef × ℤ) :=
  env.filterMap (fun n =>
    let m := main_partition_of groups n.physical_id
    if m ≠ -1 then some (.node n.physical_id, m) else none)

/-- The propagation loop (netloc_ib_extract_dats.c:391-424): for every
recorded path whose destination's main partition equals the source's,
mark every link of the path. -/
def propagation_marks (env : List UNode) (groups : List PartitionGroup)
    (paths : List (String × List (String × List PhysLink))) : List (EntityRef × ℤ) :=
  paths.flatMap (fun s =>
    let p := main_partition_of groups s.1
    s.2.flatMap (fun d =>
      if main_partition_of groups d.1 = p then (d.2.flatMap (linkMarks env p)) else []))

/-- `netloc_network_explicit_set_partitions`, as the set of bits it sets:
detection first, then initialization, then path propagation. -/
def set_partitions_marks (env : List UNode)
    (paths : List (String × List (String × List PhysLink))) : List (EntityRef × ℤ) :=
  let groups := netloc_network_explicit_find_partitions env
  init_marks env groups ++ propagation_marks env groups paths

/-- An entity's partition bit after `netloc_network_explicit_set_partitions`. -/
def markedAfter (env : List UNode) (paths : List (String × List (String × List PhysLink)))
    (ref : EntityRef) (p : ℤ) : Prop :=
  (ref, p) ∈ set_partitions_marks env paths

/-- The claim's notion of lying on an intra-partition path: some recorded
path between two hosts whose main partition is `p` has a link such that
the entity is that link, its owning edge or node, or the resolved reverse
link or that reverse link's owning edge or node (exactly the marks
`linkMarks` produces for the link). -/
def liesOnIntraPartitionPath (env : List UNode) (groups : List PartitionGroup)
    (paths : List (String × List (String × List PhysLink)))
    (ref : EntityRef) (p : ℤ) : Prop :=
  ∃ s ∈ paths, ∃ d ∈ s.2,
    main_partition_of groups s.1 = p ∧ main_partition_of groups d.1 = p ∧
    ∃ l ∈ d.2, (ref, p) ∈ linkMarks env p l

/-! ## Structural invariants of ingested graphs

The C maintains these through pointers; the identifier-based model states
them explicitly.  They are written as boolean (executable) checks so that
a concrete environment discharges them by `decide`. -/

/-- The identifiers of the node table, in order. -/
def nodeIds (env : List UNode) : List String := env.map (fun n => n.physical_id)

/-- Basic well-formedness: identifiers are unique (uthash key uniqueness)
and every link's destination pointer points at a node of the table. -/
def wfEnvB (env : List UNode) : Bool :=
  decide (nodeIds env).Nodup &&
  env.all (fun n => n.physical_links.all (fun l =>
    match l.dest with
    | none => true
    | some d => (lookupNode env d).isSome))

/-- The condition under which `get_node` synthesizes a hostname: a HOST
node whose description scans to an empty hostname. -/
def anonCase (n : UNode) : Prop :=
  n.typ = NodeType.host ∧ node_find_hostname n.description = ""

instance (n : UNode) : Decidable (anonCase n) :=
  decidable_of_iff (n.typ = NodeType.host ∧ node_find_hostname n.description = "") Iff.rfl

/-- Invariant tying every node's hostname to its description: a
non-anonymous node carries the scanned hostname, an anonymous host
carries `ANONYMOUS-k` for some `k` below the counter, and the synthesized
hostnames are pairwise distinct. -/
def HostnameInv (nodes : List UNode) (counter : ℕ) : Prop :=
  (∀ n ∈ nodes,
    (anonCase n → ∃ k, k < counter ∧ n.hostname = anonHostname k) ∧
    (¬ anonCase n → n.hostname = node_find_hostname n.description)) ∧
  List.Pairwise (fun n1 n2 => anonCase n1 → anonCase n2 → n1.hostname ≠ n2.hostname) nodes

/-- Ingestion invariant: a non-gap link sits at index (source port − 1) of
its owner and carries its owner as `parent_node`. -/
def linksStoredAtPortB (env : List UNode) : Bool :=
  env.all (fun n => (List.range n.physical_links.length).all (fun i =>
    match n.physical_links.get? i with
    | none => true
    | some l =>
        match l.dest with
        | none => true
        | some _ => decide (l.ports.1 = i + 1) && (l.parent_node == n.physical_id)))

/-- State before the post-pass: no link has its `other_link` set yet
(record ingestion always creates links with `other_link = NULL`). -/
def otherLinksUnsetB (env : List UNode) : Bool :=
  env.all (fun n => n.physical_links.all (fun l => l.other_link == none))

/-- A strictly symmetric discovery dump: for every link A→B recorded at
ports (p, q), node B's collection holds, at index q−1, a link B→A with
ports (q, p). -/
def symmetricDumpB (env : List UNode) : Bool :=
  env.all (fun n => (List.range n.physical_links.length).all (fun i =>
    match n.physical_links.get? i with
    | none => true
    | some l =>
        match l.dest with
        | none => true
        | some d =>
            match lookupNode env d with
            | none => false
            | some m =>
                (l.ports.2 != 0) &&
                match m.physical_links.get? (l.ports.2 - 1) with
                | none => false
                | some lm => (lm.dest == some n.physical_id) &&
                    (lm.ports == (l.ports.2, l.ports.1))))

/-! ## Concrete environments

Small instances used to exhibit behaviours of the functions above and to
instantiate the general theorems.  `mkLink`/`mkNode`/`mkEdge` only cut
record boilerplate (zero bandwidth, description equal to the hostname). -/

/-- A physical link with the claim-relevant fields set. -/
def mkLink (id sp dp : ℕ) (dest : Option String) (parent pedge : String) : PhysLink :=
  { int_id := id, ports := (sp, dp), width := "", speed := "", gbits := 0,
    dest := dest, description := "", parent_node := parent, parent_edge := pedge,
    other_link := none }

/-- An edge with zero aggregate bandwidth. -/
def mkEdge (dest : String) (idx : List ℕ) : UEdge :=
  { dest := dest, total_gbits := 0, physical_link_idx := idx }

/-- A node with the claim-relevant fields set. -/
def mkNode (id : String) (t : NodeType) (hostname : String) (edges : List UEdge)
    (links : List PhysLink) : UNode :=
  { physical_id := id, logical_id := 0, typ := t, description := hostname,
    hostname := hostname, edges := edges, physical_links := links }

/-- Fabric where the replay of (S, D) completes but passes through S
again: S's first edge goes to switch A, A routes D-traffic back to S, and
S's own routing entry (a forwarding table whose header guid is S's) sends
it to D. -/
def envC2 : List UNode :=
  [ mkNode "S" .host "s" [mkEdge "A" [0], mkEdge "D" [1]]
      [mkLink 0 1 1 (some "A") "S" "A", mkLink 1 2 1 (some "D") "S" "D"],
    mkNode "A" .switch "a" [mkEdge "S" [0]] [mkLink 2 1 1 (some "S") "A" "S"],
    mkNode "D" .host "d" [mkEdge "S" [0]] [mkLink 3 1 2 (some "S") "D" "S"] ]

/-- Routing tables for `envC2`. -/
def routesC2 : List RouteTable :=
  [ { physical_id := "A", dest := [("D", 1)] },
    { physical_id := "S", dest := [("D", 2)] } ]

/-- Fabric whose forwarding entries for destination D form a cycle between
switches A and B. -/
def envC3 : List UNode :=
  [ mkNode "S" .host "s" [mkEdge "A" [0]] [mkLink 0 1 1 (some "A") "S" "A"],
    mkNode "A" .switch "a" [mkEdge "B" [0]] [mkLink 1 1 1 (some "B") "A" "B"],
    mkNode "B" .switch "b" [mkEdge "A" [0]] [mkLink 2 1 1 (some "A") "B" "A"],
    mkNode "D" .host "d" [] [] ]

/-- Routing tables for `envC3`: both switches forward D-traffic to each
other. -/
def routesC3 : List RouteTable :=
  [ { physical_id := "A", dest := [("D", 1)] },
    { physical_id := "B", dest := [("D", 1)] } ]

/-- Asymmetric dump: A's port 1 claims to reach B's port 1, but the link
recorded at B's port 1 goes to C, not back to A. -/
def envC6 : List UNode :=
  [ mkNode "A" .switch "a" [] [mkLink 0 1 1 (some "B") "A" "B"],
    mkNode "B" .switch "b" [] [mkLink 1 1 1 (some "C") "B" "C"],
    mkNode "C" .switch "c" [] [mkLink 2 1 1 (some "A") "C" "A"] ]

/-- Symmetric two-node dump. -/
def envC6sym : List UNode :=
  [ mkNode "A" .switch "a" [] [mkLink 0 1 1 (some "B") "A" "B"],
    mkNode "B" .switch "b" [] [mkLink 1 1 1 (some "A") "B" "A"] ]

/-- One isolated host: it gets a main partition but lies on no path. -/
def envC5 : List UNode := [ mkNode "H" .host "a" [] [] ]

/-- Three hosts in two natural partitions. -/
def envC8 : List UNode :=
  [ mkNode "H1" .host "alpha-1" [] [],
    mkNode "H2" .host "alpha-2" [] [],
    mkNode "H3" .host "beta-2" [] [] ]

/-- A host with an edge whose every destination replay fails (empty route
store): its source entry still appears, with an empty destination map. -/
def envC10 : List UNode :=
  [ mkNode "S" .host "s" [mkEdge "A" [0]] [mkLink 0 1 1 (some "A") "S" "A"],
    mkNode "A" .switch "a" [] [],
    mkNode "D" .host "d" [] [] ]

/-- A linked-port record (CA port 1 to SW port 2, 4x QDR). -/
def recC4 : LinkedRec :=
  { src_type := .host, src_lid := "3", src_port_id := "1",
    src_guid := "aaaaaaaaaaaaaaaa", width := "4x", speed := "QDR",
    dest_type := .switch, dest_lid := "1", dest_port_id := "2",
    dest_guid := "bbbbbbbbbbbbbbbb", link_desc := "node-1 - sw",
    src_desc := "node-1", dest_desc := "sw" }

/-- A linked-port record between two CAs whose descriptions yield empty
hostnames, so both endpoints get synthesized ANONYMOUS hostnames. -/
def recC9 : LinkedRec :=
  { src_type := .host, src_lid := "3", src_port_id := "1",
    src_guid := "cccccccccccccccc", width := "4x", speed := "QDR",
    dest_type := .host, dest_lid := "4", dest_port_id := "1",
    dest_guid := "dddddddddddddddd", link_desc := "X - Y",
    src_desc := "X", dest_desc := "Y" }

/-! # Theorems -/

/-! ## C1 — bandwidth computation -/

/-- C1: the claimed bandwidth table does not hold on the code.  The
guards of `compute_gbits` use `strcmp` truthiness backwards, so the
function always computes `lanes × (rate × encoding)` with the SDR row for
every speed other than "SDR" and with the DDR row for "SDR" itself; in
particular QDR 4x yields 8 Gbit/s where the claim (like the code's own
rate table read with equality) demands 10 × 0.8 × 4 = 32, and the
sentinel 1 for unrecognized speed codes is unreachable. -/
theorem c1_compute_gbits_inverted_strcmp :
    (∀ speed width, compute_gbits speed width =
      (if width.data.contains 'x' then (atoiNat width : ℚ) else 0) *
        (if speed = "SDR" then 4 else 2)) ∧
    compute_gbits "QDR" "4x" = 8 ∧
    spec_gbits "QDR" "4x" = 32 ∧
    compute_gbits "QDR" "4x" ≠ spec_gbits "QDR" "4x" := by
  refine ⟨?_, ?_, ?_, ?_⟩
  · intro speed width
    by_cases hs : speed = "SDR" <;>
      by_cases hw : width.data.contains 'x' <;>
        simp [compute_gbits, hs, hw] <;> norm_num
  · simp [compute_gbits, atoiNat, digitsVal]; norm_num
  · simp [spec_gbits, atoiNat, digitsVal]; norm_num
  · have h1 : compute_gbits "QDR" "4x" = 8 := by
      simp [compute_gbits, atoiNat, digitsVal]; norm_num
    have h2 : spec_gbits "QDR" "4x" = 32 := by
      simp [spec_gbits, atoiNat, digitsVal]; norm_num
    rw [h1, h2]; norm_num

/-! ## C7 — malformed input lines -/

/-- C7 counterexample: a routing-table file consisting of one line that
matches no known record pattern produces no diagnostic at all (the
discovery reader, by contrast, logs a warning for such a line), refuting
"the line is logged with a diagnostic" for routing-table files. -/
theorem c7_counterexample_silent_skip :
    (read_routes_file [] [RouteLine.unrecognized]).log = [] ∧
    (read_discover_lines initDiscover [DiscLine.unrecognized]).log =
      [LogEvent.warnLineNotRecognized] := by
  exact ⟨rfl, rfl⟩

/-- C7 (amended): an unrecognized line in a discovery file is logged and
skipped and ingestion continues with the remaining lines of the file; an
unrecognized line in a routing-table file is skipped and ingestion
continues with the remaining lines, but silently — the whole run (store,
cursor, stop flag and log) is as if the line were not there. -/
theorem c7_malformed_line_handling :
    (∀ (st : DiscoverState) (xs ys : List DiscLine),
      read_discover_lines st (xs ++ DiscLine.unrecognized :: ys) =
        read_discover_lines
          { read_discover_lines st xs with
            log := (read_discover_lines st xs).log ++ [LogEvent.warnLineNotRecognized] } ys) ∧
    (∀ (routes : List RouteTable) (xs ys : List RouteLine),
      read_routes_file routes (xs ++ RouteLine.unrecognized :: ys) =
        read_routes_file routes (xs ++ ys)) := by
  constructor
  · intro st xs ys
    simp [read_discover_lines, List.foldl_append, read_discover_line]
  · intro routes xs ys
    have hid : ∀ st : RoutesFileState, read_routes_line st RouteLine.unrecognized = st := by
      intro st
      simp [read_routes_line]
    simp [read_routes_file, List.foldl_append, List.foldl_cons, hid]

/-! ## C10 — source entries of the path collection -/

/-- C10: `build_paths` records one source entry per HOST node with at
least one outgoing edge — inserted independently of the routing store and
of any pair's success, so a source key's presence never implies a complete
path exists; concretely, a host all of whose replays fail (empty route
store) keeps its entry with an empty destination map. -/
theorem c10_source_entries :
    (∀ (env : List UNode) (routes : List RouteTable) (fuel : ℕ),
      (build_paths env routes fuel).map (fun e => e.1) =
        (hostsWithEdges env).map (fun n => n.physical_id)) ∧
    build_paths envC10 [] 5 = [("S", [])] := by
  constructor
  · intro env routes fuel
    simp [build_paths]
  · decide

/-! ## C5 — partition marks -/

/-- C5 counterexample: an isolated host is marked with its main partition
by the initialization loop although the path collection is empty, so it
lies on no recorded path between two hosts of that partition (and is no
reverse link or owner of one). -/
theorem c5_counterexample_marked_without_path :
    markedAfter envC5 (build_paths envC5 [] 1) (.node "H") 0 ∧
    build_paths envC5 [] 1 = [] ∧
    ¬ liesOnIntraPartitionPath envC5 (netloc_network_explicit_find_partitions envC5)
        (build_paths envC5 [] 1) (.node "H") 0 := by
  refine ⟨?_, by decide, ?_⟩
  · unfold markedAfter; decide
  · unfold liesOnIntraPartitionPath; decide

/-- Every mark `linkMarks` produces carries the partition index it was
called with. -/
theorem linkMarks_snd_eq (env : List UNode) (p' : ℤ) (l : PhysLink) :
    ∀ x ∈ linkMarks env p' l, x.2 = p' := by
  intro x hx
  unfold linkMarks at hx
  rcases List.mem_append.1 hx with h | h
  · simp only [List.mem_cons, List.not_mem_nil, or_false] at h
    rcases h with h | h | h <;> subst h <;> rfl
  · rcases hol : l.other_link with _ | c <;> rw [hol] at h <;> dsimp only at h
    · simp at h
    · rcases hg : getLink env c.1 c.2 with _ | m <;> rw [hg] at h <;> dsimp only at h
      · simp at h
      · simp only [List.mem_cons, List.not_mem_nil, or_false] at h
        rcases h with h | h | h <;> subst h <;> rfl

/-- C5 (amended): an entity is marked with partition `p` after
`netloc_network_explicit_set_partitions` exactly when it is a node whose
main partition is `p` (marked by the initialization loop whether or not
any path touches it), or it lies on a recorded path between two hosts of
main partition `p` — as one of that path's links, the owning edge or node
of one, or the resolved reverse link of one or its owning edge or node.
The original claim fails only in that a node's own main-partition mark
needs no path. -/
theorem c5_marks_characterization (env : List UNode)
    (paths : List (String × List (String × List PhysLink))) (ref : EntityRef) (p : ℤ) :
    markedAfter env paths ref p ↔
      ((∃ n ∈ env, ref = .node n.physical_id ∧
          main_partition_of (netloc_network_explicit_find_partitions env) n.physical_id = p ∧
          p ≠ -1) ∨
        liesOnIntraPartitionPath env (netloc_network_explicit_find_partitions env)
          paths ref p) := by
  unfold markedAfter set_partitions_marks
  rw [List.mem_append]
  constructor
  · rintro (h | h)
    · left
      unfold init_marks at h
      rw [List.mem_filterMap] at h
      obtain ⟨n, hn, hf⟩ := h
      by_cases hm : main_partition_of (netloc_network_explicit_find_partitions env)
          n.physical_id = -1
      · rw [if_neg (by simp [hm])] at hf
        exact absurd hf (by simp)
      · rw [if_pos (by simpa using hm)] at hf
        obtain ⟨h1, h2⟩ := Prod.mk.injEq .. ▸ (Option.some.injEq .. ▸ hf)
        exact ⟨n, hn, h1.symm, h2, h2 ▸ hm⟩
    · right
      unfold propagation_marks at h
      rw [List.mem_flatMap] at h
      obtain ⟨s, hs, h⟩ := h
      rw [List.mem_flatMap] at h
      obtain ⟨d, hd, h⟩ := h
      by_cases hc : main_partition_of (netloc_network_explicit_find_partitions env) d.1 =
          main_partition_of (netloc_network_explicit_find_partitions env) s.1
      · rw [if_pos hc] at h
        rw [List.mem_flatMap] at h
        obtain ⟨l, hl, h⟩ := h
        have hp : p = main_partition_of (netloc_network_explicit_find_partitions env) s.1 :=
          linkMarks_snd_eq env _ l _ h
        subst hp
        exact ⟨s, hs, d, hd, rfl, hc, l, hl, h⟩
      · rw [if_neg hc] at h
        exact absurd h (List.not_mem_nil _)
    -- (the backward direction follows)
  · rintro (⟨n, hn, href, hmain, hp⟩ | ⟨s, hs, d, hd, hps, hpd, l, hl, h⟩)
    · left
      unfold init_marks
      rw [List.mem_filterMap]
      refine ⟨n, hn, ?_⟩
      rw [if_pos (by simp [hmain, hp])]
      rw [href, hmain]
    · right
      unfold propagation_marks
      rw [List.mem_flatMap]
      refine ⟨s, hs, ?_⟩
      rw [List.mem_flatMap]
      refine ⟨d, hd, ?_⟩
      rw [if_pos (by rw [hps, hpd])]
      rw [List.mem_flatMap]
      exact ⟨l, hl, hps ▸ h⟩

/-- C4 counterexample: ingesting the same linked-port record twice leaves
the edge's constituent physical-link index list duplicated ([0, 0], not
[0]), so the edge state after the second ingestion differs from its state
after the first. -/
theorem c4_counterexample_reingest_duplicates :
    ((lookupNode (process_linked initDiscover.ingest recC4).nodes
        "aaaa:aaaa:aaaa:aaaa").bind
      (fun n => lookupEdge n "bbbb:bbbb:bbbb:bbbb")).map
        (fun e => e.physical_link_idx) = some [0] ∧
    ((lookupNode (process_linked (process_linked initDiscover.ingest recC4) recC4).nodes
        "aaaa:aaaa:aaaa:aaaa").bind
      (fun n => lookupEdge n "bbbb:bbbb:bbbb:bbbb")).map
        (fun e => e.physical_link_idx) = some [0, 0] ∧
    ([0, 0] : List ℕ) ≠ [0] := by
  refine ⟨by decide, by decide, by decide⟩

/-! ## C2 — shape of a recorded path (counterexample) -/

/-- C2 counterexample: the replay of (S, D) over `envC2`/`routesC2`
completes and is recorded, yet its walk visits the source S twice
(S, A, S, D) — the first hop is not taken from the routing tables, so a
forwarding table keyed by the source host can route back through it. -/
theorem c2_counterexample_source_revisited :
    walkVisited envC2 routesC2 "S" "D" 10 = some ["S", "A", "S", "D"] ∧
    ¬ (["S", "A", "S", "D"] : List String).Nodup := by
  exact ⟨by decide, by decide⟩

/-! ## C6 — other-link resolution (counterexample) -/

/-- C6 counterexample: in the asymmetric dump `envC6` the post-pass
resolves A's only link (destination B, destination port 1) to the link
stored at B's port 1 — but that link goes to C, not back to A's node, so
`other_link.dest ≠ parent_node` and the relation is not symmetric. -/
theorem c6_counterexample_asymmetric :
    (getLink (resolve_other_links envC6) "A" 0).map (fun l => l.other_link) =
      some (some ("B", 0)) ∧
    (getLink (resolve_other_links envC6) "B" 0).map (fun l => l.dest) =
      some (some "C") ∧
    (getLink (resolve_other_links envC6) "A" 0).map (fun l => l.parent_node) =
      some "A" ∧
    ("C" : String) ≠ "A" := by
  refine ⟨by decide, by decide, by decide, by decide⟩

/-! ## C9 — hostname extraction

First the arithmetic of the decimal rendering (`natToChars` is injective,
proved through the decoder `natFromChars`), then the equivalence of the
bounded scan loop with a `takeWhile`, then the hostname invariant carried
through a whole `read_discover` run. -/

/-- The fuel of `natDigitsRevFuel` is irrelevant once it covers `n`. -/
theorem natDigitsRevFuel_congr :
    ∀ (f1 f2 n : ℕ), n ≤ f1 → n ≤ f2 →
      natDigitsRevFuel f1 n = natDigitsRevFuel f2 n := by
  intro f1
  induction f1 with
  | zero =>
    intro f2 n h1 _
    interval_cases n
    cases f2 <;> rfl
  | succ f ih =>
    intro f2 n h1 h2
    cases n with
    | zero => cases f2 <;> rfl
    | succ m =>
      cases f2 with
      | zero => omega
      | succ f2' =>
        have hd : (m + 1) / 10 < m + 1 := Nat.div_lt_self (Nat.succ_pos m) (by norm_num)
        show ((m + 1) % 10) :: natDigitsRevFuel f ((m + 1) / 10) =
          ((m + 1) % 10) :: natDigitsRevFuel f2' ((m + 1) / 10)
        congr 1
        exact ih f2' _ (by omega) (by omega)

/-- Unfolding equation of `natDigitsRev` on a positive number. -/
theorem natDigitsRev_succ (n : ℕ) :
    natDigitsRev (n + 1) = ((n + 1) % 10) :: natDigitsRev ((n + 1) / 10) := by
  have hd : (n + 1) / 10 < n + 1 := Nat.div_lt_self (Nat.succ_pos n) (by norm_num)
  show ((n + 1) % 10) :: natDigitsRevFuel n ((n + 1) / 10) = _
  congr 1
  exact natDigitsRevFuel_congr n _ _ (by omega) le_rfl

/-- The decoder inverts the digit expansion. -/
theorem ofDigitsRev_natDigitsRev : ∀ n, ofDigitsRev (natDigitsRev n) = n := by
  intro n
  induction n using Nat.strong_induction_on with
  | _ n ih =>
    cases n with
    | zero => rfl
    | succ m =>
      rw [natDigitsRev_succ]
      show (m + 1) % 10 + 10 * ofDigitsRev (natDigitsRev ((m + 1) / 10)) = m + 1
      rw [ih ((m + 1) / 10) (Nat.div_lt_self (Nat.succ_pos m) (by norm_num))]
      exact Nat.mod_add_div (m + 1) 10

/-- Every expanded digit is below 10. -/
theorem natDigitsRev_lt_ten : ∀ n d, d ∈ natDigitsRev n → d < 10 := by
  intro n
  induction n using Nat.strong_induction_on with
  | _ n ih =>
    intro d hd
    cases n with
    | zero =>
      rw [show natDigitsRev 0 = [] from rfl] at hd
      cases hd
    | succ m =>
      rw [natDigitsRev_succ] at hd
      rcases List.mem_cons.1 hd with h | h
      · subst h; exact Nat.mod_lt _ (by norm_num)
      · exact ih ((m + 1) / 10) (Nat.div_lt_self (Nat.succ_pos m) (by norm_num)) d h

/-- Digit characters decode to their values. -/
theorem chDigit_digitCh (d : ℕ) (h : d < 10) : chDigit (digitCh d) = d := by
  interval_cases d <;> decide

/-- Round trip: decoding the decimal rendering of `n` gives back `n`. -/
theorem natFromChars_natToChars (n : ℕ) : natFromChars (natToChars n) = n := by
  by_cases h : n = 0
  · subst h; decide
  · unfold natToChars natFromChars
    rw [if_neg h, List.map_reverse, List.reverse_reverse, List.map_map]
    have hmap : (natDigitsRev n).map (chDigit ∘ digitCh) = (natDigitsRev n).map id := by
      apply List.map_congr_left
      intro d hd
      exact chDigit_digitCh d (natDigitsRev_lt_ten n d hd)
    rw [hmap, List.map_id]
    exact ofDigitsRev_natDigitsRev n

/-- The `%u` renderings of distinct counters are distinct strings. -/
theorem anonHostname_inj {k1 k2 : ℕ} (h : anonHostname k1 = anonHostname k2) : k1 = k2 := by
  unfold anonHostname at h
  have hd : "ANONYMOUS-".data ++ natToChars k1 = "ANONYMOUS-".data ++ natToChars k2 :=
    congrArg String.data h
  have hc := List.append_cancel_left hd
  calc k1 = natFromChars (natToChars k1) := (natFromChars_natToChars k1).symm
    _ = natFromChars (natToChars k2) := by rw [hc]
    _ = k2 := natFromChars_natToChars k2

/-- The bounded scan loop is a `takeWhile` once the bound covers the
remaining characters. -/
theorem scanHost_eq_takeWhile :
    ∀ (l : List Char) (bound : ℕ), l.length ≤ bound →
      scanHost bound l = l.takeWhile isHostnameChar := by
  intro l
  induction l with
  | nil => intro bound _; cases bound <;> rfl
  | cons c rest ih =>
    intro bound h
    cases bound with
    | zero => simp at h
    | succ b =>
      show (if isHostnameChar c then c :: scanHost b rest else []) = _
      rw [List.takeWhile_cons]
      by_cases hc : isHostnameChar c = true
      · rw [if_pos hc, if_pos hc, ih b (by simpa using h)]
      · rw [if_neg hc, if_neg hc]

/-- `node_find_hostname` computes the maximal `[a-z0-9-]` prefix of the
description after skipping one leading apostrophe. -/
theorem node_find_hostname_eq (desc : String) :
    node_find_hostname desc =
      String.mk ((if desc.data.head? = some quoteChar then desc.data.tail
        else desc.data).takeWhile isHostnameChar) := by
  have hbody : node_find_hostname desc =
      String.mk (scanHost desc.data.length
        (if desc.data.head? = some quoteChar then desc.data.tail else desc.data)) := rfl
  rw [hbody]
  by_cases h : desc.data.head? = some quoteChar
  · exact congrArg String.mk (scanHost_eq_takeWhile _ _
      (by rw [if_pos h, List.length_tail]; omega))
  · exact congrArg String.mk (scanHost_eq_takeWhile _ _ (by rw [if_neg h]))

/-- The invariant is insensitive to raising the counter. -/
theorem hostnameInv_mono {nodes : List UNode} {c c' : ℕ} (h : c ≤ c')
    (hi : HostnameInv nodes c) : HostnameInv nodes c' := by
  obtain ⟨h1, h2⟩ := hi
  refine ⟨fun n hn => ⟨fun ha => ?_, (h1 n hn).2⟩, h2⟩
  obtain ⟨k, hk, he⟩ := (h1 n hn).1 ha
  exact ⟨k, by omega, he⟩

/-- `get_node` preserves the hostname invariant. -/
theorem hostnameInv_get_node (st : IngestState) (t : NodeType) (lid guid desc : String)
    (hi : HostnameInv st.nodes st.unknown_node_id) :
    HostnameInv (get_node st t lid guid desc).1.nodes
      (get_node st t lid guid desc).1.unknown_node_id := by
  unfold get_node
  cases hl : lookupNode st.nodes (canonicalId guid) with
  | some n => simpa [hl] using hi
  | none =>
    simp only [hl]
    obtain ⟨h1, h2⟩ := hi
    by_cases ha : (t == NodeType.host && node_find_hostname desc == "") = true
    · simp only [ha, if_true]
      constructor
      · intro n hn
        rcases List.mem_append.1 hn with hn | hn
        · refine ⟨fun han => ?_, (h1 n hn).2⟩
          obtain ⟨k, hk, he⟩ := (h1 n hn).1 han
          exact ⟨k, by omega, he⟩
        · rw [List.mem_singleton] at hn
          subst hn
          constructor
          · intro _
            exact ⟨st.unknown_node_id, by omega, rfl⟩
          · intro hna
            exfalso
            apply hna
            simp only [Bool.and_eq_true, beq_iff_eq] at ha
            exact ⟨ha.1, ha.2⟩
      · rw [List.pairwise_append]
        refine ⟨h2, List.pairwise_singleton _ _, ?_⟩
        intro a hain b hbin ha1 hb1
        rw [List.mem_singleton] at hbin
        subst hbin
        obtain ⟨k, hk, he⟩ := (h1 a hain).1 ha1
        rw [he]
        intro hcontra
        exact absurd (anonHostname_inj hcontra) (by omega)
    · simp only [ha, if_false]
      constructor
      · intro n hn
        rcases List.mem_append.1 hn with hn | hn
        · exact h1 n hn
        · rw [List.mem_singleton] at hn
          subst hn
          constructor
          · intro han
            exfalso
            apply ha
            simp only [Bool.and_eq_true, beq_iff_eq]
            exact ⟨han.1, han.2⟩
          · intro _
            rfl
      · rw [List.pairwise_append]
        refine ⟨h2, List.pairwise_singleton _ _, ?_⟩
        intro a hain b hbin ha1 hb1
        rw [List.mem_singleton] at hbin
        subst hbin
        exfalso
        apply ha
        simp only [Bool.and_eq_true, beq_iff_eq]
        exact ⟨hb1.1, hb1.2⟩

/-- `updateNode` with a field-preserving function keeps the invariant. -/
theorem hostnameInv_updateNode (nodes : List UNode) (c : ℕ) (id : String)
    (f : UNode → UNode)
    (hf : ∀ n, (f n).typ = n.typ ∧ (f n).description = n.description ∧
      (f n).hostname = n.hostname)
    (hi : HostnameInv nodes c) : HostnameInv (updateNode nodes id f) c := by
  obtain ⟨h1, h2⟩ := hi
  have hg : ∀ n, (anonCase (if n.physical_id == id then f n else n) ↔ anonCase n) ∧
      (if n.physical_id == id then f n else n).hostname = n.hostname ∧
      (if n.physical_id == id then f n else n).description = n.description := by
    intro n
    by_cases hid : (n.physical_id == id) = true
    · rw [if_pos hid]
      exact ⟨by unfold anonCase; rw [(hf n).1, (hf n).2.1], (hf n).2.2, (hf n).2.1⟩
    · rw [if_neg hid]
      exact ⟨Iff.rfl, rfl, rfl⟩
  constructor
  · intro n hn
    rw [updateNode, List.mem_map] at hn
    obtain ⟨m, hm, he⟩ := hn
    subst he
    obtain ⟨hiff, hh, hdsc⟩ := hg m
    constructor
    · intro ha
      obtain ⟨k, hk, hhe⟩ := (h1 m hm).1 (hiff.1 ha)
      exact ⟨k, hk, by rw [hh, hhe]⟩
    · intro ha
      rw [hh, hdsc]
      exact (h1 m hm).2 (fun hc => ha (hiff.2 hc))
  · rw [updateNode, List.pairwise_map]
    apply h2.imp
    intro a b hab ha hb
    obtain ⟨hiffa, hha, _⟩ := hg a
    obtain ⟨hiffb, hhb, _⟩ := hg b
    rw [hha, hhb]
    exact hab (hiffa.1 ha) (hiffb.1 hb)

/-- `add_edge_if_missing` preserves the hostname invariant. -/
theorem hostnameInv_add_edge (st : IngestState) (sid did : String)
    (hi : HostnameInv st.nodes st.unknown_node_id) :
    HostnameInv (add_edge_if_missing st sid did).nodes
      (add_edge_if_missing st sid did).unknown_node_id := by
  unfold add_edge_if_missing
  by_cases he : ((lookupNode st.nodes sid).bind (fun n => lookupEdge n did)).isSome
  · rw [if_pos he]; exact hi
  · rw [if_neg he]
    exact hostnameInv_updateNode st.nodes st.unknown_node_id sid _
      (fun n => ⟨rfl, rfl, rfl⟩) hi

/-- `add_link` preserves the hostname invariant. -/
theorem hostnameInv_add_link (st : IngestState) (r : LinkedRec) (sid did : String)
    (hi : HostnameInv st.nodes st.unknown_node_id) :
    HostnameInv (add_link st r sid did).nodes
      (add_link st r sid did).unknown_node_id := by
  unfold add_link
  exact hostnameInv_updateNode st.nodes st.unknown_node_id sid _
    (fun n => ⟨rfl, rfl, rfl⟩) hi

/-- `process_linked` preserves the hostname invariant. -/
theorem hostnameInv_process_linked (st : IngestState) (r : LinkedRec)
    (hi : HostnameInv st.nodes st.unknown_node_id) :
    HostnameInv (process_linked st r).nodes (process_linked st r).unknown_node_id := by
  unfold process_linked
  apply hostnameInv_add_link
  apply hostnameInv_add_edge
  exact hostnameInv_get_node _ r.dest_type r.dest_lid r.dest_guid r.dest_desc
    (hostnameInv_get_node st r.src_type r.src_lid r.src_guid r.src_desc hi)

/-- The other-link post-pass preserves the hostname invariant. -/
theorem hostnameInv_resolve (nodes : List UNode) (c : ℕ)
    (hi : HostnameInv nodes c) : HostnameInv (resolve_other_links nodes) c := by
  obtain ⟨h1, h2⟩ := hi
  have hg : ∀ n : UNode, anonCase ({ n with physical_links := n.physical_links.map (fun l =>
      match l.dest with
      | none => l
      | some _ => { l with other_link := find_other_physical_link nodes l }) }) ↔ anonCase n := by
    intro n; exact Iff.rfl
  constructor
  · intro n hn
    rw [resolve_other_links, List.mem_map] at hn
    obtain ⟨m, hm, he⟩ := hn
    subst he
    exact ⟨fun ha => (h1 m hm).1 ((hg m).1 ha), fun ha => (h1 m hm).2 (fun hc => ha ((hg m).2 hc))⟩
  · rw [resolve_other_links, List.pairwise_map]
    apply h2.imp
    intro a b hab ha hb
    exact hab ((hg a).1 ha) ((hg b).1 hb)

/-- One discovery line preserves the hostname invariant. -/
theorem hostnameInv_line (st : DiscoverState) (l : DiscLine)
    (hi : HostnameInv st.ingest.nodes st.ingest.unknown_node_id) :
    HostnameInv (read_discover_line st l).ingest.nodes
      (read_discover_line st l).ingest.unknown_node_id := by
  cases l with
  | dr => exact hi
  | linked r => exact hostnameInv_process_linked st.ingest r hi
  | unlinked t a b c => exact hi
  | unrecognized => exact hi

/-- A whole `read_discover` run establishes the hostname invariant from
the empty initial state. -/
theorem hostnameInv_read_discover (lines : List DiscLine) :
    HostnameInv (read_discover initDiscover lines).ingest.nodes
      (read_discover initDiscover lines).ingest.unknown_node_id := by
  have hrun : ∀ (st : DiscoverState),
      HostnameInv st.ingest.nodes st.ingest.unknown_node_id →
      HostnameInv (read_discover_lines st lines).ingest.nodes
        (read_discover_lines st lines).ingest.unknown_node_id := by
    induction lines with
    | nil => intro st hi; exact hi
    | cons l rest ih =>
      intro st hi
      exact ih (read_discover_line st l) (hostnameInv_line st l hi)
  have hinit : HostnameInv initDiscover.ingest.nodes initDiscover.ingest.unknown_node_id := by
    constructor
    · intro n hn; cases hn
    · exact List.Pairwise.nil
  unfold read_discover
  exact hostnameInv_resolve _ _ (hrun initDiscover hinit)

/-- C9: the derived hostname is the maximal prefix of the description —
after skipping one leading quote — of lowercase letters, digits and
hyphens; in every ingestion run, a HOST whose prefix is empty instead
carries a synthesized `ANONYMOUS-<counter>` hostname, and those
placeholders are pairwise distinct across the run's nodes. -/
theorem c9_hostname_extraction :
    (∀ desc : String, node_find_hostname desc =
      String.mk ((if desc.data.head? = some quoteChar then desc.data.tail
        else desc.data).takeWhile isHostnameChar)) ∧
    (∀ lines : List DiscLine, ∀ n ∈ (read_discover initDiscover lines).ingest.nodes,
      (¬ anonCase n → n.hostname = node_find_hostname n.description) ∧
      (anonCase n → ∃ k, n.hostname = anonHostname k)) ∧
    (∀ lines : List DiscLine,
      List.Pairwise (fun n1 n2 => anonCase n1 → anonCase n2 → n1.hostname ≠ n2.hostname)
        (read_discover initDiscover lines).ingest.nodes) := by
  refine ⟨node_find_hostname_eq, ?_, ?_⟩
  · intro lines n hn
    obtain ⟨h1, _⟩ := hostnameInv_read_discover lines
    refine ⟨(h1 n hn).2, fun ha => ?_⟩
    obtain ⟨k, _, he⟩ := (h1 n hn).1 ha
    exact ⟨k, he⟩
  · intro lines
    exact (hostnameInv_read_discover lines).2

/-- C9 witness: processing the record `recC9` creates a HOST with an empty
scanned hostname, and the theorem yields its synthesized placeholder. -/
theorem c9_witness :
    ∃ n, n ∈ (read_discover initDiscover [DiscLine.linked recC9]).ingest.nodes ∧
      anonCase n ∧ (∃ k, n.hostname = anonHostname k) := by
  have hx : ∃ n ∈ (read_discover initDiscover [DiscLine.linked recC9]).ingest.nodes,
      anonCase n := by decide
  obtain ⟨n, hn, ha⟩ := hx
  exact ⟨n, hn, ha, (c9_hostname_extraction.2.1 [DiscLine.linked recC9] n hn).2 ha⟩

/-! ## C8 — partition detection

Lemmas about the merge sweep, proved over `sweepGroupsFuel` by induction
on the fuel (the recursion consumes a sublist, so the list length bounds
the depth). -/

/-- The sweep's fuel is irrelevant once it covers the list. -/
theorem sweepGroupsFuel_congr :
    ∀ (f1 f2 : ℕ) (l : List (String × String)), l.length ≤ f1 → l.length ≤ f2 →
      sweepGroupsFuel f1 l = sweepGroupsFuel f2 l := by
  intro f1
  induction f1 with
  | zero =>
    intro f2 l h1 _
    have hl : l = [] := List.length_eq_zero.1 (by omega)
    subst hl
    cases f2 <;> rfl
  | succ f ih =>
    intro f2 l h1 h2
    cases l with
    | nil => cases f2 <;> rfl
    | cons hd rest =>
      obtain ⟨h, nm⟩ := hd
      cases f2 with
      | zero => simp at h2
      | succ f2' =>
        show _ :: sweepGroupsFuel f (rest.filter (fun x => !(x.2 == nm))) =
          _ :: sweepGroupsFuel f2' (rest.filter (fun x => !(x.2 == nm)))
        congr 1
        have hlen := List.length_filter_le (fun x : String × String => !(x.2 == nm)) rest
        simp only [List.length_cons] at h1 h2
        exact ih f2' _ (by omega) (by omega)

/-- One-step unfolding of the sweep. -/
theorem sweepGroups_cons (hd : String × String) (rest : List (String × String)) :
    sweepGroups (hd :: rest) =
      { name := hd.2,
        member_ids := hd.1 :: (rest.filter (fun x => x.2 == hd.2)).map (fun x => x.1) } ::
        sweepGroups (rest.filter (fun x => !(x.2 == hd.2))) := by
  obtain ⟨h, nm⟩ := hd
  show sweepGroupsFuel (rest.length + 1) ((h, nm) :: rest) = _
  show _ :: sweepGroupsFuel rest.length (rest.filter (fun x => !(x.2 == nm))) = _
  congr 1
  exact sweepGroupsFuel_congr _ _ _ (List.length_filter_le _ _) le_rfl

/-- Every group's name is one of the candidate names. -/
theorem sweepGroupsFuel_name_mem :
    ∀ (fuel : ℕ) (l : List (String × String)) (g : PartitionGroup), l.length ≤ fuel →
      g ∈ sweepGroupsFuel fuel l → g.name ∈ l.map (fun x => x.2) := by
  intro fuel
  induction fuel with
  | zero =>
    intro l g h hg
    have hl : l = [] := List.length_eq_zero.1 (by omega)
    subst hl
    cases hg
  | succ f ih =>
    intro l g h hg
    cases l with
    | nil => cases hg
    | cons hd rest =>
      obtain ⟨x, nm⟩ := hd
      rcases List.mem_cons.1 hg with h1 | h1
      · subst h1
        exact List.mem_cons_self _ _
      · have hlen := List.length_filter_le (fun x : String × String => !(x.2 == nm)) rest
        simp only [List.length_cons] at h
        have := ih _ g (by omega) h1
        have hsub : (rest.filter (fun x => !(x.2 == nm))).map (fun x => x.2) ⊆
            rest.map (fun x => x.2) := List.map_subset _ (List.filter_sublist rest).subset
        exact List.mem_cons.2 (Or.inr (hsub this))

/-- Characterization of a group's members: exactly the hosts of the input
list whose candidate name is the group's name, in order. -/
theorem sweepGroupsFuel_members :
    ∀ (fuel : ℕ) (l : List (String × String)) (g : PartitionGroup), l.length ≤ fuel →
      g ∈ sweepGroupsFuel fuel l →
      g.member_ids = (l.filter (fun x => x.2 == g.name)).map (fun x => x.1) := by
  intro fuel
  induction fuel with
  | zero =>
    intro l g h hg
    have hl : l = [] := List.length_eq_zero.1 (by omega)
    subst hl
    cases hg
  | succ f ih =>
    intro l g h hg
    cases l with
    | nil => cases hg
    | cons hd rest =>
      obtain ⟨x, nm⟩ := hd
      simp only [List.length_cons] at h
      have hlen := List.length_filter_le (fun x : String × String => !(x.2 == nm)) rest
      rcases List.mem_cons.1 hg with h1 | h1
      · subst h1
        show x :: (rest.filter (fun y => y.2 == nm)).map (fun y => y.1) = _
        rw [List.filter_cons]
        simp only [beq_self_eq_true, if_true]
        rfl
      · have hne : g.name ≠ nm := by
          have hmem := sweepGroupsFuel_name_mem f _ g (by omega) h1
          rw [List.mem_map] at hmem
          obtain ⟨y, hy, he⟩ := hmem
          rw [List.mem_filter] at hy
          have hyn : y.2 ≠ nm := by simpa using hy.2
          rw [← he]
          exact hyn
        rw [ih _ g (by omega) h1, List.filter_filter]
        show _ = (List.filter (fun y => y.2 == g.name) ((x, nm) :: rest)).map _
        have hhead : (((x, nm) : String × String).2 == g.name) = false := by
          rw [beq_eq_false_iff_ne]
          exact fun hc => hne hc.symm
        rw [List.filter_cons, hhead]
        simp only [Bool.false_eq_true, if_false]
        congr 1
        apply List.filter_congr
        intro y _
        by_cases hyg : (y.2 == g.name) = true
        · have hynm : (y.2 == nm) = false := by
            rw [beq_eq_false_iff_ne]
            rw [beq_iff_eq] at hyg
            rw [hyg]
            exact hne
          rw [hyg, hynm]
          rfl
        · have hyg' : (y.2 == g.name) = false := by
            revert hyg
            cases (y.2 == g.name) <;> simp
          rw [hyg']
          rfl

/-- The sweep emits pairwise distinct partition names. -/
theorem sweepGroupsFuel_names_nodup :
    ∀ (fuel : ℕ) (l : List (String × String)), l.length ≤ fuel →
      ((sweepGroupsFuel fuel l).map (fun g => g.name)).Nodup := by
  intro fuel
  induction fuel with
  | zero =>
    intro l h
    have hl : l = [] := List.length_eq_zero.1 (by omega)
    subst hl
    exact List.Pairwise.nil
  | succ f ih =>
    intro l h
    cases l with
    | nil => exact List.Pairwise.nil
    | cons hd rest =>
      obtain ⟨x, nm⟩ := hd
      simp only [List.length_cons] at h
      have hlen := List.length_filter_le (fun x : String × String => !(x.2 == nm)) rest
      show (nm :: (sweepGroupsFuel f (rest.filter (fun x => !(x.2 == nm)))).map
        (fun g => g.name)).Nodup
      rw [List.nodup_cons]
      constructor
      · intro hmem
        rw [List.mem_map] at hmem
        obtain ⟨g, hg, he⟩ := hmem
        have hgn := sweepGroupsFuel_name_mem f _ g (by omega) hg
        rw [List.mem_map] at hgn
        obtain ⟨y, hy, he2⟩ := hgn
        rw [List.mem_filter] at hy
        have : y.2 ≠ nm := by simpa using hy.2
        exact this (by rw [he2, he])
      · exact ih _ (by omega)

/-- Existence: every entry's host lands in a group carrying its candidate
name. -/
theorem sweepGroupsFuel_exists :
    ∀ (fuel : ℕ) (l : List (String × String)) (e : String × String), l.length ≤ fuel →
      e ∈ l → ∃ p g, (sweepGroupsFuel fuel l).get? p = some g ∧ g.name = e.2 ∧
        e.1 ∈ g.member_ids := by
  intro fuel
  induction fuel with
  | zero =>
    intro l e h he
    have hl : l = [] := List.length_eq_zero.1 (by omega)
    subst hl
    cases he
  | succ f ih =>
    intro l e h he
    cases l with
    | nil => cases he
    | cons hd rest =>
      obtain ⟨x, nm⟩ := hd
      simp only [List.length_cons] at h
      have hlen := List.length_filter_le (fun x : String × String => !(x.2 == nm)) rest
      by_cases hnm : e.2 = nm
      · refine ⟨0, _, rfl, hnm.symm, ?_⟩
        show e.1 ∈ x :: (rest.filter (fun y => y.2 == nm)).map (fun y => y.1)
        rcases List.mem_cons.1 he with h1 | h1
        · rw [h1]
          exact List.mem_cons_self _ _
        · refine List.mem_cons.2 (Or.inr ?_)
          rw [List.mem_map]
          exact ⟨e, List.mem_filter.2 ⟨h1, by simp [hnm]⟩, rfl⟩
      · have hmem : e ∈ rest.filter (fun y => !(y.2 == nm)) := by
          rcases List.mem_cons.1 he with h1 | h1
          · exact absurd (congrArg Prod.snd h1) hnm
          · exact List.mem_filter.2 ⟨h1, by simp [hnm]⟩
        obtain ⟨p, g, hget, hname, hin⟩ := ih _ e (by omega) hmem
        exact ⟨p + 1, g, hget, hname, hin⟩

/-- `findIdx?` returns the first index whose element satisfies the
predicate (with the accumulator made explicit). -/
theorem findIdx?_eq_of_first_aux {α : Type} (p : α → Bool) :
    ∀ (l : List α) (s i : ℕ) (a : α), l.get? i = some a → p a = true →
      (∀ j b, j < i → l.get? j = some b → p b = false) →
      List.findIdx? p l s = some (s + i) := by
  intro l
  induction l with
  | nil => intro s i a h; cases h
  | cons x xs ih =>
    intro s i a hget hp hbefore
    cases i with
    | zero =>
      rw [List.get?_cons_zero, Option.some.injEq] at hget
      subst hget
      rw [List.findIdx?_cons, if_pos hp, Nat.add_zero]
    | succ i' =>
      have hx : p x = false := hbefore 0 x (by omega) rfl
      rw [List.findIdx?_cons, if_neg (by rw [hx]; exact Bool.false_ne_true)]
      have := ih (s + 1) i' a hget hp
        (fun j b hj hb => hbefore (j + 1) b (by omega) (by simpa using hb))
      rw [this]
      congr 1
      omega

/-- `findIdx?` from index 0. -/
theorem findIdx?_eq_of_first {α : Type} (p : α → Bool) (l : List α) (i : ℕ) (a : α)
    (hget : l.get? i = some a) (hp : p a = true)
    (hbefore : ∀ j b, j < i → l.get? j = some b → p b = false) :
    List.findIdx? p l = some i := by
  have := findIdx?_eq_of_first_aux p l 0 i a hget hp hbefore
  simpa using this

/-- In a list with duplicate-free first components, an element is
determined by its first component. -/
theorem pair_eq_of_fst_nodup {l : List (String × String)}
    (hnd : (l.map (fun x => x.1)).Nodup) {x y : String × String}
    (hx : x ∈ l) (hy : y ∈ l) (he : x.1 = y.1) : x = y := by
  induction l with
  | nil => cases hx
  | cons hd rest ih =>
    rw [List.map_cons, List.nodup_cons] at hnd
    rcases List.mem_cons.1 hx with h1 | h1 <;> rcases List.mem_cons.1 hy with h2 | h2
    · rw [h1, h2]
    · exfalso
      apply hnd.1
      rw [List.mem_map]
      exact ⟨y, h2, by rw [← he, h1]⟩
    · exfalso
      apply hnd.1
      rw [List.mem_map]
      exact ⟨x, h1, by rw [he, h2]⟩
    · exact ih hnd.2 h1 h2

/-- The sweep's complete behaviour on one entry: its host lies in exactly
one group, that group carries its candidate name, and the host's main
partition index is that group's index. -/
theorem sweep_main_spec (l : List (String × String))
    (hfst : (l.map (fun x => x.1)).Nodup) (e : String × String) (he : e ∈ l) :
    ∃ p g, (sweepGroups l).get? p = some g ∧ g.name = e.2 ∧ e.1 ∈ g.member_ids ∧
      main_partition_of (sweepGroups l) e.1 = (p : ℤ) ∧
      (∀ q gq, (sweepGroups l).get? q = some gq → e.1 ∈ gq.member_ids → q = p) := by
  obtain ⟨p, g, hget, hname, hin⟩ := sweepGroupsFuel_exists l.length l e le_rfl he
  replace hget : (sweepGroups l).get? p = some g := hget
  have hnames : ((sweepGroups l).map (fun g => g.name)).Nodup :=
    sweepGroupsFuel_names_nodup l.length l le_rfl
  have hmem_name : ∀ (gq : PartitionGroup), gq ∈ sweepGroups l → e.1 ∈ gq.member_ids →
      gq.name = e.2 := by
    intro gq hgq hinq
    have hmembers := sweepGroupsFuel_members l.length l gq le_rfl hgq
    rw [hmembers, List.mem_map] at hinq
    obtain ⟨y, hy, hye⟩ := hinq
    rw [List.mem_filter] at hy
    have hyn : y.2 = gq.name := by simpa using hy.2
    have : y = e := pair_eq_of_fst_nodup hfst hy.1 he hye
    rw [← hyn, this]
  have huniq : ∀ q gq, (sweepGroups l).get? q = some gq → e.1 ∈ gq.member_ids → q = p := by
    intro q gq hq hinq
    have h1 : gq.name = e.2 := hmem_name gq (List.get?_mem hq) hinq
    have h2 : g.name = e.2 := hname
    have hq' : ((sweepGroups l).map (fun g => g.name)).get? q = some e.2 := by
      rw [List.get?_map, hq]
      simp [h1]
    have hp' : ((sweepGroups l).map (fun g => g.name)).get? p = some e.2 := by
      rw [List.get?_map, hget]
      simp [h2]
    have hqlen : q < (sweepGroups l).length := by
      by_contra hc
      rw [List.get?_eq_none.2 (by omega)] at hq
      cases hq
    exact List.get?_inj (by simpa using hqlen) hnames (by rw [hq', hp'])
  refine ⟨p, g, hget, hname, hin, ?_, huniq⟩
  have hfind : (sweepGroups l).findIdx? (fun g => g.member_ids.contains e.1) = some p := by
    apply findIdx?_eq_of_first _ _ p g hget
    · exact List.elem_iff.2 hin
    · intro j b hj hb
      by_cases hc : (b.member_ids.contains e.1) = true
      · exact absurd (huniq j b hb (List.elem_iff.1 hc)) (by omega)
      · revert hc
        cases (b.member_ids.contains e.1) <;> simp
  rw [main_partition_of, hfind]

/-- C8: after partition detection every HOST node has exactly one
main-partition index, lying in [0, number of partitions); two hosts share
an index exactly when their candidate names (maximal letter/hyphen prefix
of the hostname, trailing hyphens stripped) agree; and each group's
membership list is a duplicate-free union carrying exactly the hosts of
its name. -/
theorem c8_partition_assignment (env : List UNode) (hnd : (nodeIds env).Nodup) :
    ∀ n ∈ env, n.typ = NodeType.host →
      ∃ p : ℕ,
        main_partition_of (netloc_network_explicit_find_partitions env) n.physical_id =
          (p : ℤ) ∧
        p < (netloc_network_explicit_find_partitions env).length ∧
        (∃ g, (netloc_network_explicit_find_partitions env).get? p = some g ∧
          g.name = node_find_partition_name n.hostname ∧
          n.physical_id ∈ g.member_ids ∧ g.member_ids.Nodup ∧
          (∀ q gq, (netloc_network_explicit_find_partitions env).get? q = some gq →
            n.physical_id ∈ gq.member_ids → q = p)) ∧
        (∀ n2 ∈ env, n2.typ = NodeType.host →
          (main_partition_of (netloc_network_explicit_find_partitions env) n.physical_id =
            main_partition_of (netloc_network_explicit_find_partitions env) n2.physical_id ↔
          node_find_partition_name n.hostname = node_find_partition_name n2.hostname)) := by
  intro n hn htyp
  have hfst : ((hostEntries env).map (fun x => x.1)).Nodup := by
    unfold hostEntries
    rw [List.map_map]
    have hsub : ((env.filter (fun n => n.typ == NodeType.host)).map
        (fun n => n.physical_id)).Sublist (nodeIds env) :=
      List.Sublist.map _ (List.filter_sublist env)
    exact List.Nodup.sublist hsub hnd
  have hein : ∀ m ∈ env, m.typ = NodeType.host →
      ((m.physical_id, node_find_partition_name m.hostname) : String × String) ∈
        hostEntries env := by
    intro m hm ht
    unfold hostEntries
    rw [List.mem_map]
    exact ⟨m, List.mem_filter.2 ⟨hm, by simp [ht]⟩, rfl⟩
  obtain ⟨p, g, hget, hname, hin, hmain, huniq⟩ :=
    sweep_main_spec (hostEntries env) hfst _ (hein n hn htyp)
  replace hget : (netloc_network_explicit_find_partitions env).get? p = some g := hget
  replace hname : g.name = node_find_partition_name n.hostname := hname
  replace hin : n.physical_id ∈ g.member_ids := hin
  replace hmain : main_partition_of (netloc_network_explicit_find_partitions env)
    n.physical_id = (p : ℤ) := hmain
  replace huniq : ∀ q gq, (netloc_network_explicit_find_partitions env).get? q = some gq →
    n.physical_id ∈ gq.member_ids → q = p := huniq
  have hplen : p < (netloc_network_explicit_find_partitions env).length := by
    by_contra hc
    rw [List.get?_eq_none.2 (by omega)] at hget
    cases hget
  have hnames : ((netloc_network_explicit_find_partitions env).map
      (fun g => g.name)).Nodup :=
    sweepGroupsFuel_names_nodup (hostEntries env).length (hostEntries env) le_rfl
  refine ⟨p, hmain, hplen, ⟨g, hget, hname, hin, ?_, huniq⟩, ?_⟩
  · have hmembers := sweepGroupsFuel_members (hostEntries env).length (hostEntries env) g
      le_rfl (List.get?_mem hget)
    rw [hmembers]
    have hsub : (((hostEntries env).filter (fun x => x.2 == g.name)).map
        (fun x => x.1)).Sublist ((hostEntries env).map (fun x => x.1)) :=
      List.Sublist.map _ (List.filter_sublist _)
    exact List.Nodup.sublist hsub hfst
  · intro n2 hn2 htyp2
    obtain ⟨p2, g2, hget2, hname2, hin2, hmain2, huniq2⟩ :=
      sweep_main_spec (hostEntries env) hfst _ (hein n2 hn2 htyp2)
    replace hget2 : (netloc_network_explicit_find_partitions env).get? p2 = some g2 := hget2
    replace hname2 : g2.name = node_find_partition_name n2.hostname := hname2
    replace hmain2 : main_partition_of (netloc_network_explicit_find_partitions env)
      n2.physical_id = (p2 : ℤ) := hmain2
    constructor
    · intro heq
      rw [hmain, hmain2] at heq
      have hpp : p = p2 := by exact_mod_cast heq
      rw [hpp] at hget
      have hg12 : g = g2 := Option.some.inj (hget.symm.trans hget2)
      rw [← hname, ← hname2, hg12]
    · intro heq
      have hp2' : ((netloc_network_explicit_find_partitions env).map
          (fun g => g.name)).get? p2 = some (node_find_partition_name n.hostname) := by
        rw [List.get?_map, hget2]
        simp [hname2, heq]
      have hp' : ((netloc_network_explicit_find_partitions env).map
          (fun g => g.name)).get? p = some (node_find_partition_name n.hostname) := by
        rw [List.get?_map, hget]
        simp [hname]
      have hp2len : p2 < (netloc_network_explicit_find_partitions env).length := by
        by_contra hc
        rw [List.get?_eq_none.2 (by omega)] at hget2
        cases hget2
      have : p2 = p := List.get?_inj (by simpa using hp2len) hnames (by rw [hp2', hp'])
      rw [hmain, hmain2, this]

/-- C8 witness: three hosts named alpha-1, alpha-2, beta-2 give two
partitions with the expected assignment. -/
theorem c8_witness :
    ∃ p : ℕ,
      main_partition_of (netloc_network_explicit_find_partitions envC8) "H1" = (p : ℤ) ∧
      p < (netloc_network_explicit_find_partitions envC8).length := by
  obtain ⟨n, hn, ha⟩ : ∃ n ∈ envC8, n.typ = NodeType.host ∧ n.physical_id = "H1" := by decide
  obtain ⟨p, hmain, hplen, _, _⟩ :=
    c8_partition_assignment envC8 (by decide) n hn ha.1
  exact ⟨p, by rw [← ha.2]; exact hmain, hplen⟩

/-! ## C6 — other-link symmetry under a symmetric dump -/

/-- Pointwise reading of `linksStoredAtPortB`. -/
theorem linksStoredAtPortB_spec {env : List UNode} (h : linksStoredAtPortB env = true) :
    ∀ n ∈ env, ∀ i l, n.physical_links.get? i = some l → l.dest ≠ none →
      l.ports.1 = i + 1 ∧ l.parent_node = n.physical_id := by
  intro n hn i l hget hdest
  unfold linksStoredAtPortB at h
  rw [List.all_eq_true] at h
  have h1 := h n hn
  rw [List.all_eq_true] at h1
  have hi : i ∈ List.range n.physical_links.length := by
    rw [List.mem_range]
    by_contra hc
    rw [List.get?_eq_none.2 (by omega)] at hget
    cases hget
  have h2 := h1 i hi
  simp only [hget] at h2
  rcases hld : l.dest with _ | d
  · exact absurd hld hdest
  · simp only [hld] at h2
    simp only [Bool.and_eq_true, decide_eq_true_eq, beq_iff_eq] at h2
    exact h2

/-- Pointwise reading of `symmetricDumpB`. -/
theorem symmetricDumpB_spec {env : List UNode} (h : symmetricDumpB env = true) :
    ∀ n ∈ env, ∀ i l, n.physical_links.get? i = some l → ∀ d, l.dest = some d →
      l.ports.2 ≠ 0 ∧
      ∃ m, lookupNode env d = some m ∧
        ∃ lm, m.physical_links.get? (l.ports.2 - 1) = some lm ∧
          lm.dest = some n.physical_id ∧ lm.ports = (l.ports.2, l.ports.1) := by
  intro n hn i l hget d hld
  unfold symmetricDumpB at h
  rw [List.all_eq_true] at h
  have h1 := h n hn
  rw [List.all_eq_true] at h1
  have hi : i ∈ List.range n.physical_links.length := by
    rw [List.mem_range]
    by_contra hc
    rw [List.get?_eq_none.2 (by omega)] at hget
    cases hget
  have h2 := h1 i hi
  simp only [hget, hld] at h2
  rcases hm : lookupNode env d with _ | m
  · rw [hm] at h2; cases h2
  · rw [hm] at h2
    rcases hlm : m.physical_links.get? (l.ports.2 - 1) with _ | lm
    · simp only [hlm, Bool.and_eq_true] at h2
      exact absurd h2.2 (by simp)
    · simp only [hlm, Bool.and_eq_true, bne_iff_ne, ne_eq, beq_iff_eq] at h2
      exact ⟨h2.1, m, rfl, lm, hlm, h2.2⟩

/-- Pointwise reading of `otherLinksUnsetB`. -/
theorem otherLinksUnsetB_spec {env : List UNode} (h : otherLinksUnsetB env = true) :
    ∀ n ∈ env, ∀ l ∈ n.physical_links, l.other_link = none := by
  intro n hn l hl
  unfold otherLinksUnsetB at h
  rw [List.all_eq_true] at h
  have h1 := h n hn
  rw [List.all_eq_true] at h1
  have := h1 l hl
  simpa using this

/-- Node lookup commutes with the post-pass. -/
theorem lookupNode_resolve (env : List UNode) (id : String) :
    lookupNode (resolve_other_links env) id =
      (lookupNode env id).map (fun n =>
        { n with physical_links := n.physical_links.map (fun l =>
            match l.dest with
            | none => l
            | some _ => { l with other_link := find_other_physical_link env l }) }) := by
  unfold resolve_other_links lookupNode
  rw [List.find?_map]
  rfl

/-- Link lookup commutes with the post-pass. -/
theorem getLink_resolve (env : List UNode) (id : String) (i : ℕ) :
    getLink (resolve_other_links env) id i =
      (getLink env id i).map (fun l =>
        match l.dest with
        | none => l
        | some _ => { l with other_link := find_other_physical_link env l }) := by
  unfold getLink
  rw [lookupNode_resolve]
  cases lookupNode env id with
  | none => rfl
  | some n =>
    show ((n.physical_links.map _).get? i) = (n.physical_links.get? i).map _
    exact List.get?_map _ _ _

/-- C6 (amended): when every non-gap link is stored at (source port − 1)
of its owner, no link's other-link is pre-set, and the dump is strictly
symmetric, the resolved other-link relation is symmetric: the link at the
resolved coordinates resolves back, its destination is the original
link's parent node, and vice versa.  Without the symmetry assumption the
post-pass stores whatever link sits at the recorded destination port and
none of this need hold (`c6_counterexample_asymmetric`). -/
theorem c6_other_link_symmetry (env : List UNode)
    (hstore : linksStoredAtPortB env = true) (hsym : symmetricDumpB env = true)
    (hunset : otherLinksUnsetB env = true) :
    ∀ nid i l c, getLink (resolve_other_links env) nid i = some l →
      l.other_link = some c →
      ∃ m, getLink (resolve_other_links env) c.1 c.2 = some m ∧
        m.other_link = some (nid, i) ∧
        m.dest = some l.parent_node ∧ l.dest = some m.parent_node := by
  intro nid i l c hget hol
  rw [getLink_resolve] at hget
  obtain ⟨l0, hl0, hfl⟩ := Option.map_eq_some'.1 hget
  obtain ⟨n, hn, hni⟩ : ∃ n, lookupNode env nid = some n ∧ n.physical_links.get? i = some l0 := by
    unfold getLink at hl0
    rcases hx : lookupNode env nid with _ | n
    · rw [hx] at hl0; cases hl0
    · rw [hx] at hl0; exact ⟨n, rfl, hl0⟩
  have hnid : n.physical_id = nid := by
    have := List.find?_some hn
    simpa using this
  have hnmem : n ∈ env := List.mem_of_find?_eq_some hn
  rcases hld : l0.dest with _ | d
  · exfalso
    rw [hld] at hfl
    have : l0.other_link = none :=
      otherLinksUnsetB_spec hunset n hnmem l0 (List.get?_mem hni)
    rw [← hfl] at hol
    rw [this] at hol
    cases hol
  · have hlp : l = { l0 with other_link := find_other_physical_link env l0 } := by
      rw [← hfl, hld]
    have hfo : find_other_physical_link env l0 = some c := by
      rw [hlp] at hol
      exact hol
    unfold find_other_physical_link at hfo
    rw [hld] at hfo
    dsimp only at hfo
    obtain ⟨hp2, m0, hm0, lm, hlm, hlmdest, hlmports⟩ :=
      symmetricDumpB_spec hsym n hnmem i l0 hni d hld
    rw [if_neg hp2, hm0] at hfo
    dsimp only at hfo
    have hrange : l0.ports.2 - 1 < m0.physical_links.length := by
      by_contra hc
      rw [List.get?_eq_none.2 (by omega)] at hlm
      cases hlm
    rw [if_pos hrange] at hfo
    obtain rfl : (d, l0.ports.2 - 1) = c := Option.some.inj hfo
    obtain ⟨hports1, hparent⟩ :=
      linksStoredAtPortB_spec hstore n hnmem i l0 hni (by rw [hld]; simp)
    have hm0mem : m0 ∈ env := List.mem_of_find?_eq_some hm0
    have hm0id : m0.physical_id = d := by
      have := List.find?_some hm0
      simpa using this
    obtain ⟨hlmports1, hlmparent⟩ :=
      linksStoredAtPortB_spec hstore m0 hm0mem (l0.ports.2 - 1) lm hlm
        (by rw [hlmdest]; simp)
    have hilen : i < n.physical_links.length := by
      by_contra hc
      rw [List.get?_eq_none.2 (by omega)] at hni
      cases hni
    have hfo2 : find_other_physical_link env lm = some (nid, i) := by
      unfold find_other_physical_link
      rw [hlmdest]
      dsimp only
      have hlmp2 : lm.ports.2 = i + 1 := by
        rw [hlmports]
        exact hports1
      rw [hlmp2, if_neg (by omega), hnid, hn]
      dsimp only
      simp only [Nat.add_sub_cancel]
      rw [if_pos hilen]
    have hge : getLink env d (l0.ports.2 - 1) = some lm := by
      unfold getLink
      rw [hm0]
      exact hlm
    refine ⟨{ lm with other_link := find_other_physical_link env lm }, ?_, ?_, ?_, ?_⟩
    · show getLink (resolve_other_links env) d (l0.ports.2 - 1) = some _
      rw [getLink_resolve, hge]
      have hflm : (match lm.dest with
          | none => lm
          | some _ => { lm with other_link := find_other_physical_link env lm }) =
            { lm with other_link := find_other_physical_link env lm } := by
        rw [hlmdest]
      exact congrArg some hflm
    · exact hfo2
    · show lm.dest = some l.parent_node
      rw [hlp]
      show lm.dest = some l0.parent_node
      rw [hlmdest, hparent]
    · rw [hlp]
      show l0.dest = some lm.parent_node
      rw [hld, hlmparent, hm0id]

/-- C6 witness: on the symmetric two-node dump the resolved other-link of
A's link points at B's link, which resolves back to A's link. -/
theorem c6_witness :
    ∃ m, getLink (resolve_other_links envC6sym) "B" 0 = some m ∧
      m.other_link = some ("A", 0) := by
  obtain ⟨l, hl, hol⟩ : ∃ l, getLink (resolve_other_links envC6sym) "A" 0 = some l ∧
      l.other_link = some ("B", 0) := by decide
  obtain ⟨m, hm, hom, _, _⟩ := c6_other_link_symmetry envC6sym (by decide) (by decide)
    (by decide) "A" 0 l ("B", 0) hl hol
  exact ⟨m, hm, hom⟩

/-! ## C4 — re-ingestion of the same record (amended theorem)

Mechanical lemmas about `get_node`, the node/edge updates and the
port-indexed insertion, then the two-run analysis. -/

/-- A found node's identifier is the lookup key. -/
theorem lookupNode_id {env : List UNode} {id : String} {n : UNode}
    (h : lookupNode env id = some n) : n.physical_id = id := by
  have := List.find?_some h
  simpa using this

/-- A found edge's key is its destination. -/
theorem lookupEdge_dest {n : UNode} {did : String} {e : UEdge}
    (h : lookupEdge n did = some e) : e.dest = did := by
  have := List.find?_some h
  simpa using this

/-- Node lookup through `updateNode`, for an identifier-preserving
update. -/
theorem lookupNode_updateNode (env : List UNode) (id id' : String) (f : UNode → UNode)
    (hf : ∀ n, (f n).physical_id = n.physical_id) :
    lookupNode (updateNode env id f) id' =
      (lookupNode env id').map (fun n => if n.physical_id == id then f n else n) := by
  unfold updateNode lookupNode
  rw [List.find?_map]
  have hp : ((fun n : UNode => n.physical_id == id') ∘
      (fun n => if n.physical_id == id then f n else n)) =
      (fun n : UNode => n.physical_id == id') := by
    funext n
    by_cases h : (n.physical_id == id) = true
    · simp only [Function.comp_apply, if_pos h, hf n]
    · simp only [Function.comp_apply, if_neg h]
  rw [hp]

/-- Edge lookup through `updateEdge`, for a destination-preserving
update. -/
theorem findEdge_updateEdge (edges : List UEdge) (did did' : String) (g : UEdge → UEdge)
    (hg : ∀ e, (g e).dest = e.dest) :
    (updateEdge edges did g).find? (fun e => e.dest == did') =
      (edges.find? (fun e => e.dest == did')).map
        (fun e => if e.dest == did then g e else e) := by
  unfold updateEdge
  rw [List.find?_map]
  have hp : ((fun e : UEdge => e.dest == did') ∘
      (fun e => if e.dest == did then g e else e)) =
      (fun e : UEdge => e.dest == did') := by
    funext e
    by_cases h : (e.dest == did) = true
    · simp only [Function.comp_apply, if_pos h, hg e]
    · simp only [Function.comp_apply, if_neg h]
  rw [hp]

/-- Node lookup over an appended singleton. -/
theorem lookupNode_append (env l : List UNode) (id : String) :
    lookupNode (env ++ l) id = (lookupNode env id).or (lookupNode l id) := by
  unfold lookupNode
  exact List.find?_append

/-- `get_node` on an already-present identifier returns the state
unchanged — node resolution is idempotent. -/
theorem get_node_found (st : IngestState) (t : NodeType) (lid guid desc : String)
    (n : UNode) (h : lookupNode st.nodes (canonicalId guid) = some n) :
    get_node st t lid guid desc = (st, canonicalId guid) := by
  simp only [get_node]
  rw [h]

/-- The identifier `get_node` returns. -/
theorem get_node_snd (st : IngestState) (t : NodeType) (lid guid desc : String) :
    (get_node st t lid guid desc).2 = canonicalId guid := by
  simp only [get_node]
  cases lookupNode st.nodes (canonicalId guid) <;> rfl

/-- `get_node` never touches the link counter. -/
theorem get_node_global (st : IngestState) (t : NodeType) (lid guid desc : String) :
    (get_node st t lid guid desc).1.global_link_idx = st.global_link_idx := by
  simp only [get_node]
  cases lookupNode st.nodes (canonicalId guid) <;> rfl

/-- After `get_node`, the resolved identifier is present. -/
theorem get_node_lookup_self (st : IngestState) (t : NodeType) (lid guid desc : String) :
    (lookupNode (get_node st t lid guid desc).1.nodes (canonicalId guid)).isSome := by
  simp only [get_node]
  cases h : lookupNode st.nodes (canonicalId guid) with
  | some n =>
    show (lookupNode st.nodes (canonicalId guid)).isSome = true
    rw [h]
    rfl
  | none =>
    show (lookupNode (st.nodes ++ [_]) (canonicalId guid)).isSome
    rw [lookupNode_append, h]
    unfold lookupNode
    rw [List.find?_cons]
    simp

/-- `get_node` preserves every successful lookup. -/
theorem get_node_lookup_preserved (st : IngestState) (t : NodeType)
    (lid guid desc : String) {id : String} {n : UNode}
    (h : lookupNode st.nodes id = some n) :
    lookupNode (get_node st t lid guid desc).1.nodes id = some n := by
  simp only [get_node]
  cases hl : lookupNode st.nodes (canonicalId guid) with
  | some m => exact h
  | none =>
    show lookupNode (st.nodes ++ [_]) id = some n
    rw [lookupNode_append, h, Option.or_some]

/-- The port-indexed insertion covers the written index. -/
theorem setLinkAt_length_ge (ls : List PhysLink) (idx : ℕ) (l : PhysLink) :
    idx + 1 ≤ (setLinkAt ls idx l).length := by
  unfold setLinkAt
  by_cases h : idx + 1 > ls.length
  · rw [if_pos h]
    simp only [List.length_append, List.length_replicate, List.length_singleton]
    omega
  · rw [if_neg h, List.length_set]
    omega

/-- Reading back the just-written index. -/
theorem setLinkAt_get_self (ls : List PhysLink) (idx : ℕ) (l : PhysLink) :
    (setLinkAt ls idx l).get? idx = some l := by
  unfold setLinkAt
  by_cases h : idx + 1 > ls.length
  · rw [if_pos h]
    have hlen : (ls ++ List.replicate (idx - ls.length) zeroLink).length = idx := by
      simp only [List.length_append, List.length_replicate]
      omega
    rw [List.get?_append_right (le_of_eq hlen), hlen]
    simp
  · rw [if_neg h]
    rw [List.get?_set_eq]
    have hx : idx < ls.length := by omega
    rw [List.get?_eq_get hx]
    rfl

/-- In-range insertion is an overwrite. -/
theorem setLinkAt_of_le (ls : List PhysLink) (idx : ℕ) (l : PhysLink)
    (h : idx + 1 ≤ ls.length) : setLinkAt ls idx l = ls.set idx l := by
  unfold setLinkAt
  rw [if_neg (by omega)]

/-- `updateEdge` keeps the edge key list. -/
theorem updateEdge_map_dest (edges : List UEdge) (did : String) (g : UEdge → UEdge)
    (hg : ∀ e, (g e).dest = e.dest) :
    (updateEdge edges did g).map (fun e => e.dest) = edges.map (fun e => e.dest) := by
  unfold updateEdge
  rw [List.map_map]
  apply List.map_congr_left
  intro e _
  by_cases h : (e.dest == did) = true
  · simp only [Function.comp_apply, if_pos h, hg e]
  · simp only [Function.comp_apply, if_neg h]

/-- Self lookup after an identifier-preserving `updateNode`. -/
theorem lookupNode_updateNode_self (env : List UNode) (id : String) (f : UNode → UNode)
    (hf : ∀ n, (f n).physical_id = n.physical_id) (n : UNode)
    (hn : lookupNode env id = some n) :
    lookupNode (updateNode env id f) id = some (f n) := by
  rw [lookupNode_updateNode env id id f hf, hn]
  have hid : n.physical_id = id := lookupNode_id hn
  simp [hid]

/-- `updateNode` does not change which lookups succeed. -/
theorem lookupNode_updateNode_isSome (env : List UNode) (id id' : String)
    (f : UNode → UNode) (hf : ∀ n, (f n).physical_id = n.physical_id) :
    (lookupNode (updateNode env id f) id').isSome = (lookupNode env id').isSome := by
  rw [lookupNode_updateNode env id id' f hf]
  cases lookupNode env id' <;> rfl

/-- What `add_edge_if_missing` guarantees: the source node now has the
edge, all lookups' success is unchanged, and the counters are untouched. -/
theorem add_edge_spec (st : IngestState) (sid did : String) (ns : UNode)
    (hns : lookupNode st.nodes sid = some ns) :
    ∃ n3 e3, lookupNode (add_edge_if_missing st sid did).nodes sid = some n3 ∧
      lookupEdge n3 did = some e3 ∧
      (∀ id', (lookupNode (add_edge_if_missing st sid did).nodes id').isSome =
        (lookupNode st.nodes id').isSome) ∧
      (add_edge_if_missing st sid did).global_link_idx = st.global_link_idx := by
  unfold add_edge_if_missing
  by_cases hex : (((lookupNode st.nodes sid).bind (fun n => lookupEdge n did)).isSome) = true
  · rw [if_pos hex]
    rw [hns, Option.some_bind] at hex
    obtain ⟨e, he⟩ := Option.isSome_iff_exists.1 hex
    exact ⟨ns, e, hns, he, fun _ => rfl, rfl⟩
  · rw [if_neg hex]
    have hid : ns.physical_id = sid := lookupNode_id hns
    have hnone : lookupEdge ns did = none := by
      rw [hns, Option.some_bind] at hex
      cases hle : lookupEdge ns did with
      | none => rfl
      | some e => rw [hle] at hex; simp at hex
    refine ⟨{ ns with edges := ns.edges ++
        [{ dest := did, total_gbits := 0, physical_link_idx := [] }] },
      { dest := did, total_gbits := 0, physical_link_idx := [] }, ?_, ?_, ?_, rfl⟩
    · exact lookupNode_updateNode_self st.nodes sid
        (fun n => { n with edges := n.edges ++
        [{ dest := did, total_gbits := 0, physical_link_idx := [] }] }) (fun n => rfl) ns hns
    · unfold lookupEdge
      show (ns.edges ++ _).find? _ = _
      rw [List.find?_append]
      unfold lookupEdge at hnone
      rw [hnone, Option.none_or, List.find?_cons]
      simp
    · intro id'
      exact lookupNode_updateNode_isSome st.nodes sid id'
        (fun n => { n with edges := n.edges ++
        [{ dest := did, total_gbits := 0, physical_link_idx := [] }] }) (fun n => rfl)

/-- What `add_link` does to the source node, the counters and the key
sets. -/
theorem add_link_spec (st : IngestState) (r : LinkedRec) (sid did : String)
    (n3 : UNode) (hn3 : lookupNode st.nodes sid = some n3) :
    lookupNode (add_link st r sid did).nodes sid =
      some { n3 with
        physical_links := setLinkAt n3.physical_links (atoiNat r.src_port_id - 1)
          (recordLink r sid did st.global_link_idx),
        edges := updateEdge n3.edges did (fun e =>
          { e with total_gbits := e.total_gbits + compute_gbits r.speed r.width,
                   physical_link_idx := e.physical_link_idx ++
                     [atoiNat r.src_port_id - 1] }) } ∧
    (∀ id', (lookupNode (add_link st r sid did).nodes id').isSome =
      (lookupNode st.nodes id').isSome) ∧
    (add_link st r sid did).global_link_idx = st.global_link_idx + 1 ∧
    nodeIds (add_link st r sid did).nodes = nodeIds st.nodes := by
  have hid : n3.physical_id = sid := lookupNode_id hn3
  refine ⟨?_, ?_, rfl, ?_⟩
  · exact lookupNode_updateNode_self st.nodes sid
      (fun n =>
      { n with
        physical_links := setLinkAt n.physical_links (atoiNat r.src_port_id - 1)
          (recordLink r sid did st.global_link_idx),
        edges := updateEdge n.edges did (fun e =>
          { e with total_gbits := e.total_gbits + compute_gbits r.speed r.width,
                   physical_link_idx := e.physical_link_idx ++
                     [atoiNat r.src_port_id - 1] }) }) (fun n => rfl) n3 hn3
  · intro id'
    exact lookupNode_updateNode_isSome st.nodes sid id'
      (fun n =>
      { n with
        physical_links := setLinkAt n.physical_links (atoiNat r.src_port_id - 1)
          (recordLink r sid did st.global_link_idx),
        edges := updateEdge n.edges did (fun e =>
          { e with total_gbits := e.total_gbits + compute_gbits r.speed r.width,
                   physical_link_idx := e.physical_link_idx ++
                     [atoiNat r.src_port_id - 1] }) }) (fun n => rfl)
  · show nodeIds (updateNode st.nodes sid _) = nodeIds st.nodes
    unfold nodeIds updateNode
    rw [List.map_map]
    apply List.map_congr_left
    intro n _
    by_cases h : (n.physical_id == sid) = true
    · simp only [Function.comp_apply, if_pos h]
    · simp only [Function.comp_apply, if_neg h]

/-- Edge lookup on a node whose edges went through `updateEdge` at the
looked-up key. -/
theorem lookupEdge_updated (n3 : UNode) (did : String) (e3 : UEdge)
    (g : UEdge → UEdge) (hg : ∀ e, (g e).dest = e.dest)
    (he3 : lookupEdge n3 did = some e3) (fl : List PhysLink) :
    lookupEdge
      { n3 with
        physical_links := fl,
        edges := updateEdge n3.edges did g } did = some (g e3) := by
  unfold lookupEdge
  show (updateEdge n3.edges did g).find? _ = _
  rw [findEdge_updateEdge _ _ _ _ hg]
  unfold lookupEdge at he3
  rw [he3]
  have hd : e3.dest = did := by
    have := List.find?_some he3
    simpa using this
  simp [hd]

/-- With both endpoints and the edge already present, re-ingesting the
record is exactly the link-construction tail. -/
theorem process_linked_of_present (st : IngestState) (r : LinkedRec)
    (n1 nd : UNode) (e1 : UEdge)
    (hn1 : lookupNode st.nodes (canonicalId r.src_guid) = some n1)
    (hnd : lookupNode st.nodes (canonicalId r.dest_guid) = some nd)
    (he1 : lookupEdge n1 (canonicalId r.dest_guid) = some e1) :
    process_linked st r =
      add_link st r (canonicalId r.src_guid) (canonicalId r.dest_guid) := by
  have h1 : get_node st r.src_type r.src_lid r.src_guid r.src_desc =
      (st, canonicalId r.src_guid) := get_node_found _ _ _ _ _ _ hn1
  have h2 : get_node st r.dest_type r.dest_lid r.dest_guid r.dest_desc =
      (st, canonicalId r.dest_guid) := get_node_found _ _ _ _ _ _ hnd
  have h3 : add_edge_if_missing st (canonicalId r.src_guid) (canonicalId r.dest_guid) =
      st := by
    unfold add_edge_if_missing
    rw [hn1, Option.some_bind, he1]
    rfl
  simp only [process_linked, h1, h2, h3]

/-- What a first ingestion of a record establishes: the source node holds
the record's link at index (source port − 1), the edge to the destination
exists, the destination node exists, and the link counter advanced. -/
theorem process_linked_first (st : IngestState) (r : LinkedRec)
    (hp : 1 ≤ atoiNat r.src_port_id) :
    ∃ n1 e1,
      lookupNode (process_linked st r).nodes (canonicalId r.src_guid) = some n1 ∧
      (∃ nd, lookupNode (process_linked st r).nodes (canonicalId r.dest_guid) = some nd) ∧
      lookupEdge n1 (canonicalId r.dest_guid) = some e1 ∧
      atoiNat r.src_port_id ≤ n1.physical_links.length ∧
      n1.physical_links.get? (atoiNat r.src_port_id - 1) =
        some (recordLink r (canonicalId r.src_guid) (canonicalId r.dest_guid)
          st.global_link_idx) ∧
      (process_linked st r).global_link_idx = st.global_link_idx + 1 := by
  have hpl : process_linked st r = add_link (add_edge_if_missing
      (get_node (get_node st r.src_type r.src_lid r.src_guid r.src_desc).1
        r.dest_type r.dest_lid r.dest_guid r.dest_desc).1
      (canonicalId r.src_guid) (canonicalId r.dest_guid)) r
      (canonicalId r.src_guid) (canonicalId r.dest_guid) := by
    simp only [process_linked, get_node_snd]
  obtain ⟨ns, hns⟩ := Option.isSome_iff_exists.1
    (get_node_lookup_self st r.src_type r.src_lid r.src_guid r.src_desc)
  have hns2 := get_node_lookup_preserved _ r.dest_type r.dest_lid r.dest_guid r.dest_desc hns
  obtain ⟨ndd, hndd⟩ := Option.isSome_iff_exists.1
    (get_node_lookup_self (get_node st r.src_type r.src_lid r.src_guid r.src_desc).1
      r.dest_type r.dest_lid r.dest_guid r.dest_desc)
  obtain ⟨n3, e3, hn3, he3, hpres3, hglob3⟩ :=
    add_edge_spec _ (canonicalId r.src_guid) (canonicalId r.dest_guid) ns hns2
  obtain ⟨hn4, hpres4, hglob4, _⟩ :=
    add_link_spec _ r (canonicalId r.src_guid) (canonicalId r.dest_guid) n3 hn3
  have hglob12 : (get_node (get_node st r.src_type r.src_lid r.src_guid r.src_desc).1
      r.dest_type r.dest_lid r.dest_guid r.dest_desc).1.global_link_idx =
      st.global_link_idx := by
    rw [get_node_global, get_node_global]
  rw [hpl]
  refine ⟨_,
    { e3 with
      total_gbits := e3.total_gbits + compute_gbits r.speed r.width,
      physical_link_idx := e3.physical_link_idx ++ [atoiNat r.src_port_id - 1] },
    hn4, ?_, ?_, ?_, ?_, ?_⟩
  · apply Option.isSome_iff_exists.1
    rw [hpres4, hpres3, hndd]
    rfl
  · exact lookupEdge_updated n3 (canonicalId r.dest_guid) e3
      (fun e =>
        { e with
          total_gbits := e.total_gbits + compute_gbits r.speed r.width,
          physical_link_idx := e.physical_link_idx ++ [atoiNat r.src_port_id - 1] })
      (fun e => rfl) he3 _
  · refine le_trans ?_ (setLinkAt_length_ge _ _ _)
    omega
  · rw [hglob3, hglob12]
    exact setLinkAt_get_self _ _ _
  · rw [hglob4, hglob3, hglob12]

/-- C4. Node resolution is idempotent: resolving an already-present
identifier returns the state unchanged. Re-ingesting a linked-port
record creates no new node (the identifier list is unchanged), no new
edge (the edge key list is unchanged) and no longer link list: the
stored link is overwritten in place by a copy differing only in its
creation-order id. But the edge's physical-link index list receives a
duplicate entry and the link bandwidth is accumulated into the edge
aggregate a second time, so the edge does not equal its state after the
first ingestion. -/
theorem c4_reingest_behaviour (st : IngestState) (r : LinkedRec)
    (hp : 1 ≤ atoiNat r.src_port_id) :
    (∀ (st2 : IngestState) (t : NodeType) (lid guid desc : String) (n : UNode),
        lookupNode st2.nodes (canonicalId guid) = some n →
        get_node st2 t lid guid desc = (st2, canonicalId guid)) ∧
    ∃ n1 e1 l1 n2 e2,
      lookupNode (process_linked st r).nodes (canonicalId r.src_guid) = some n1 ∧
      lookupEdge n1 (canonicalId r.dest_guid) = some e1 ∧
      n1.physical_links.get? (atoiNat r.src_port_id - 1) = some l1 ∧
      lookupNode (process_linked (process_linked st r) r).nodes
        (canonicalId r.src_guid) = some n2 ∧
      lookupEdge n2 (canonicalId r.dest_guid) = some e2 ∧
      nodeIds (process_linked (process_linked st r) r).nodes =
        nodeIds (process_linked st r).nodes ∧
      n2.edges.map (fun e => e.dest) = n1.edges.map (fun e => e.dest) ∧
      n2.physical_links.length = n1.physical_links.length ∧
      n2.physical_links = n1.physical_links.set (atoiNat r.src_port_id - 1)
        { l1 with int_id := l1.int_id + 1 } ∧
      e2.physical_link_idx = e1.physical_link_idx ++ [atoiNat r.src_port_id - 1] ∧
      e2.total_gbits = e1.total_gbits + compute_gbits r.speed r.width := by
  refine ⟨fun st2 t lid guid desc n h => get_node_found st2 t lid guid desc n h, ?_⟩
  obtain ⟨n1, e1, hn1, ⟨nd, hnd⟩, he1, hlen1, hget1, hglob1⟩ := process_linked_first st r hp
  have hpres := process_linked_of_present (process_linked st r) r n1 nd e1 hn1 hnd he1
  obtain ⟨hn2, _, _, hids2⟩ :=
    add_link_spec (process_linked st r) r (canonicalId r.src_guid)
      (canonicalId r.dest_guid) n1 hn1
  have hset : setLinkAt n1.physical_links (atoiNat r.src_port_id - 1)
      (recordLink r (canonicalId r.src_guid) (canonicalId r.dest_guid)
        (process_linked st r).global_link_idx) =
      n1.physical_links.set (atoiNat r.src_port_id - 1)
        (recordLink r (canonicalId r.src_guid) (canonicalId r.dest_guid)
          (process_linked st r).global_link_idx) :=
    setLinkAt_of_le _ _ _ (by omega)
  refine ⟨n1, e1,
    recordLink r (canonicalId r.src_guid) (canonicalId r.dest_guid) st.global_link_idx,
    { n1 with
      physical_links := setLinkAt n1.physical_links (atoiNat r.src_port_id - 1)
        (recordLink r (canonicalId r.src_guid) (canonicalId r.dest_guid)
          (process_linked st r).global_link_idx),
      edges := updateEdge n1.edges (canonicalId r.dest_guid) (fun e =>
        { e with
          total_gbits := e.total_gbits + compute_gbits r.speed r.width,
          physical_link_idx := e.physical_link_idx ++ [atoiNat r.src_port_id - 1] }) },
    { e1 with
      total_gbits := e1.total_gbits + compute_gbits r.speed r.width,
      physical_link_idx := e1.physical_link_idx ++ [atoiNat r.src_port_id - 1] },
    hn1, he1, hget1, ?_, ?_, ?_, ?_, ?_, ?_, rfl, rfl⟩
  · rw [hpres]
    exact hn2
  · exact lookupEdge_updated n1 (canonicalId r.dest_guid) e1
      (fun e =>
        { e with
          total_gbits := e.total_gbits + compute_gbits r.speed r.width,
          physical_link_idx := e.physical_link_idx ++ [atoiNat r.src_port_id - 1] })
      (fun e => rfl) he1 _
  · rw [hpres]
    exact hids2
  · exact updateEdge_map_dest n1.edges (canonicalId r.dest_guid)
      (fun e =>
        { e with
          total_gbits := e.total_gbits + compute_gbits r.speed r.width,
          physical_link_idx := e.physical_link_idx ++ [atoiNat r.src_port_id - 1] })
      (fun e => rfl)
  · show (setLinkAt n1.physical_links (atoiNat r.src_port_id - 1)
      (recordLink r (canonicalId r.src_guid) (canonicalId r.dest_guid)
        (process_linked st r).global_link_idx)).length = n1.physical_links.length
    rw [hset, List.length_set]
  · show setLinkAt n1.physical_links (atoiNat r.src_port_id - 1)
      (recordLink r (canonicalId r.src_guid) (canonicalId r.dest_guid)
        (process_linked st r).global_link_idx) = _
    rw [hset, hglob1]
    rfl

/-- The re-ingestion theorem at the concrete sample record, starting from
the empty state. -/
theorem c4_witness :
    1 ≤ atoiNat recC4.src_port_id ∧
    ((∀ (st2 : IngestState) (t : NodeType) (lid guid desc : String) (n : UNode),
        lookupNode st2.nodes (canonicalId guid) = some n →
        get_node st2 t lid guid desc = (st2, canonicalId guid)) ∧
    ∃ n1 e1 l1 n2 e2,
      lookupNode (process_linked initDiscover.ingest recC4).nodes
        (canonicalId recC4.src_guid) = some n1 ∧
      lookupEdge n1 (canonicalId recC4.dest_guid) = some e1 ∧
      n1.physical_links.get? (atoiNat recC4.src_port_id - 1) = some l1 ∧
      lookupNode (process_linked (process_linked initDiscover.ingest recC4) recC4).nodes
        (canonicalId recC4.src_guid) = some n2 ∧
      lookupEdge n2 (canonicalId recC4.dest_guid) = some e2 ∧
      nodeIds (process_linked (process_linked initDiscover.ingest recC4) recC4).nodes =
        nodeIds (process_linked initDiscover.ingest recC4).nodes ∧
      n2.edges.map (fun e => e.dest) = n1.edges.map (fun e => e.dest) ∧
      n2.physical_links.length = n1.physical_links.length ∧
      n2.physical_links = n1.physical_links.set (atoiNat recC4.src_port_id - 1)
        { l1 with int_id := l1.int_id + 1 } ∧
      e2.physical_link_idx = e1.physical_link_idx ++ [atoiNat recC4.src_port_id - 1] ∧
      e2.total_gbits = e1.total_gbits + compute_gbits recC4.speed recC4.width) :=
  ⟨by decide, c4_reingest_behaviour initDiscover.ingest recC4 (by decide)⟩

/-! ## The replay loop, declaratively (towards C2 and C3) -/

/-- A link with a set destination contributes it to the visit list. -/
theorem destsOf_cons (l : PhysLink) (ls : List PhysLink) (n : String)
    (h : l.dest = some n) : destsOf (l :: ls) = n :: destsOf ls := by
  simp [destsOf, h]

/-- A completed run of the loop is a `Reaches` derivation appended to the
accumulator. -/
theorem reaches_of_walkAux (env : List UNode) (routes : List RouteTable)
    (dst : String) :
    ∀ (fuel : ℕ) (cur : String) (acc res : List PhysLink),
      walkAux env routes dst fuel cur acc = .completed res →
      ∃ ls, res = acc.reverse ++ ls ∧ Reaches env routes dst cur ls := by
  intro fuel
  induction fuel with
  | zero => intro cur acc res h; exact WalkRes.noConfusion h
  | succ f ih =>
    intro cur acc res h
    unfold walkAux at h
    by_cases hc : cur = dst
    · rw [if_pos hc] at h
      refine ⟨[], ?_, ?_⟩
      · cases h
        simp
      · rw [hc]
        exact Reaches.done
    · rw [if_neg hc] at h
      cases hr : lookupRoutePort routes cur dst with
      | none =>
        rw [hr] at h
        exact WalkRes.noConfusion h
      | some port =>
        rw [hr] at h
        dsimp only at h
        cases hl : routedLink env cur port with
        | none =>
          rw [hl] at h
          exact WalkRes.noConfusion h
        | some link =>
          rw [hl] at h
          dsimp only at h
          cases hd : link.dest with
          | none =>
            rw [hd] at h
            exact WalkRes.noConfusion h
          | some nxt =>
            rw [hd] at h
            dsimp only at h
            obtain ⟨ls, hres, hre⟩ := ih nxt (link :: acc) res h
            refine ⟨link :: ls, ?_, Reaches.step hc hr hl hd hre⟩
            rw [hres]
            simp

/-- The loop is deterministic: every choice in a `Reaches` step is a
function of the current node. -/
theorem reaches_det (env : List UNode) (routes : List RouteTable) (dst : String) :
    ∀ {cur : String} {ls1 : List PhysLink}, Reaches env routes dst cur ls1 →
      ∀ {ls2 : List PhysLink}, Reaches env routes dst cur ls2 → ls1 = ls2 := by
  intro cur ls1 h1
  induction h1 with
  | done =>
    intro ls2 h2
    cases h2 with
    | done => rfl
    | step hne _ _ _ _ => exact absurd rfl hne
  | step hne hr hl hd h1x ih =>
    intro ls2 h2
    cases h2 with
    | done => exact absurd rfl hne
    | step hne2 hr2 hl2 hd2 h2x =>
      rw [hr] at hr2
      injection hr2 with hport
      subst hport
      rw [hl] at hl2
      injection hl2 with hlink
      subst hlink
      rw [hd] at hd2
      injection hd2 with hnxt
      subst hnxt
      rw [ih h2x]

/-- Every link of a run has a destination, so the visit list is as long
as the link list. -/
theorem reaches_destsOf_length (env : List UNode) (routes : List RouteTable)
    (dst : String) :
    ∀ {cur : String} {ls : List PhysLink}, Reaches env routes dst cur ls →
      (destsOf ls).length = ls.length := by
  intro cur ls h
  induction h with
  | done => rfl
  | step hne hr hl hd h1x ih =>
    rw [destsOf_cons _ _ _ hd]
    simp only [List.length_cons, ih]

/-- A run's visit list ends at the destination. -/
theorem reaches_getLast (env : List UNode) (routes : List RouteTable)
    (dst : String) :
    ∀ {cur : String} {ls : List PhysLink}, Reaches env routes dst cur ls →
      (cur :: destsOf ls).getLast? = some dst := by
  intro cur ls h
  induction h with
  | done => simp [destsOf]
  | step hne hr hl hd h1x ih =>
    rw [destsOf_cons _ _ _ hd, List.getLast?_cons_cons]
    exact ih

/-- Every node of a run's visit list starts its own, strictly shorter run. -/
theorem reaches_mem (env : List UNode) (routes : List RouteTable) (dst : String) :
    ∀ {cur : String} {ls : List PhysLink}, Reaches env routes dst cur ls →
      ∀ x ∈ destsOf ls, ∃ ls2, Reaches env routes dst x ls2 ∧
        ls2.length < ls.length := by
  intro cur ls h
  induction h with
  | done => intro x hx; exact absurd hx (by simp [destsOf])
  | step hne hr hl hd h1x ih =>
    intro x hx
    rw [destsOf_cons _ _ _ hd] at hx
    rcases List.mem_cons.1 hx with hx1 | hx2
    · subst hx1
      exact ⟨_, h1x, by simp⟩
    · obtain ⟨ls2, h2, hlt⟩ := ih x hx2
      exact ⟨ls2, h2, by simp only [List.length_cons]; omega⟩

/-- By determinism a completed run never revisits a node: its visit list
is duplicate-free. -/
theorem reaches_nodup (env : List UNode) (routes : List RouteTable) (dst : String) :
    ∀ {cur : String} {ls : List PhysLink}, Reaches env routes dst cur ls →
      (cur :: destsOf ls).Nodup := by
  intro cur ls h
  induction h with
  | done => simp [destsOf]
  | @step cur2 port link nxt links hne hr hl hd h1x ih =>
    rw [destsOf_cons _ _ _ hd]
    refine List.nodup_cons.2 ⟨?_, ih⟩
    intro hmem
    have hstep : Reaches env routes dst cur2 (link :: links) :=
      Reaches.step hne hr hl hd h1x
    have hmem2 : cur2 ∈ destsOf (link :: links) := by
      rw [destsOf_cons _ _ _ hd]
      exact hmem
    obtain ⟨ls2, h2, hlt⟩ := reaches_mem env routes dst hstep cur2 hmem2
    have hdet := reaches_det env routes dst hstep h2
    rw [← hdet] at hlt
    exact absurd hlt (lt_irrefl _)

/-- A successful node lookup witnesses identifier membership. -/
theorem lookupNode_isSome_mem {env : List UNode} {x : String}
    (h : (lookupNode env x).isSome) : x ∈ nodeIds env := by
  obtain ⟨n, hn⟩ := Option.isSome_iff_exists.1 h
  have hm : n ∈ env := List.mem_of_find?_eq_some hn
  have hp : n.physical_id = x := lookupNode_id hn
  rw [← hp]
  exact List.mem_map_of_mem _ hm

/-- Extraction from well-formedness: a link destination of a table node is
itself a table identifier. -/
theorem wfEnv_dest_mem {env : List UNode} (hwf : wfEnvB env = true)
    {n : UNode} (hn : n ∈ env) {l : PhysLink} (hl : l ∈ n.physical_links)
    {d : String} (hd : l.dest = some d) : d ∈ nodeIds env := by
  unfold wfEnvB at hwf
  rw [Bool.and_eq_true] at hwf
  have h2 := hwf.2
  rw [List.all_eq_true] at h2
  have h3 := h2 n hn
  rw [List.all_eq_true] at h3
  have h4 := h3 l hl
  rw [hd] at h4
  dsimp only at h4
  exact lookupNode_isSome_mem h4

/-- The link of a routed hop belongs to a table node. -/
theorem routedLink_mem {env : List UNode} {cur : String} {port : ℕ}
    {l : PhysLink} (h : routedLink env cur port = some l) :
    ∃ n ∈ env, l ∈ n.physical_links := by
  unfold routedLink at h
  by_cases hp : port = 0
  · rw [if_pos hp] at h
    exact Option.noConfusion h
  · rw [if_neg hp] at h
    unfold getLink at h
    cases hn : lookupNode env cur with
    | none =>
      rw [hn] at h
      exact Option.noConfusion h
    | some n =>
      rw [hn, Option.some_bind] at h
      exact ⟨n, List.mem_of_find?_eq_some hn, List.get?_mem h⟩

/-- The first hop belongs to the source's own link collection. -/
theorem first_link_mem {n : UNode} {l : PhysLink} (h : first_link n = some l) :
    l ∈ n.physical_links := by
  unfold first_link at h
  cases he : n.edges.head? with
  | none =>
    rw [he] at h
    exact Option.noConfusion h
  | some e =>
    rw [he] at h
    dsimp only at h
    cases hi : e.physical_link_idx.head? with
    | none =>
      rw [hi] at h
      exact Option.noConfusion h
    | some i =>
      rw [hi] at h
      dsimp only at h
      exact List.get?_mem h

/-- Under well-formedness every node a run enters is a table identifier. -/
theorem reaches_dests_mem (env : List UNode) (routes : List RouteTable)
    (dst : String) (hwf : wfEnvB env = true) :
    ∀ {cur : String} {ls : List PhysLink}, Reaches env routes dst cur ls →
      ∀ x ∈ destsOf ls, x ∈ nodeIds env := by
  intro cur ls h
  induction h with
  | done => intro x hx; exact absurd hx (by simp [destsOf])
  | step hne hr hl hd h1x ih =>
    intro x hx
    rw [destsOf_cons _ _ _ hd] at hx
    rcases List.mem_cons.1 hx with hx1 | hx2
    · subst hx1
      obtain ⟨n, hn, hmem⟩ := routedLink_mem hl
      exact wfEnv_dest_mem hwf hn hmem hd
    · exact ih x hx2

/-- C2.  Every pair recorded by `build_paths` is a genuine replay: the
first hop comes from the source's first edge, the remaining links chain
hop by hop through the routed egress ports (`Reaches`), the visit list
ends at the destination host, the nodes entered after the source are
pairwise distinct, and the number of links is at most the number of nodes
in the subnet.  (The source itself can be revisited, so the guarantee is
only about the nodes after it.) -/
theorem c2_path_walk_properties (env : List UNode) (routes : List RouteTable)
    (fuel : ℕ) (srcId dstId : String) (pairs : List (String × List PhysLink))
    (links : List PhysLink)
    (hwf : wfEnvB env = true)
    (hsrc : (srcId, pairs) ∈ build_paths env routes fuel)
    (hpair : (dstId, links) ∈ pairs) :
    ∃ src l0 ls n0,
      src ∈ env ∧ src.physical_id = srcId ∧
      first_link src = some l0 ∧
      links = l0 :: ls ∧
      l0.dest = some n0 ∧
      Reaches env routes dstId n0 ls ∧
      (destsOf links).getLast? = some dstId ∧
      (destsOf links).Nodup ∧
      links.length ≤ env.length := by
  unfold build_paths at hsrc
  obtain ⟨src, hsrcmem, heq⟩ := List.mem_map.1 hsrc
  rw [Prod.mk.injEq] at heq
  obtain ⟨hid, hpairs⟩ := heq
  subst hid
  subst hpairs
  obtain ⟨d, hdmem, hmatch⟩ := List.mem_filterMap.1 hpair
  cases hb : build_one_path env routes src d.physical_id fuel with
  | incomplete =>
    rw [hb] at hmatch
    exact Option.noConfusion hmatch
  | crashed =>
    rw [hb] at hmatch
    exact Option.noConfusion hmatch
  | outOfFuel =>
    rw [hb] at hmatch
    exact Option.noConfusion hmatch
  | completed links2 =>
    rw [hb] at hmatch
    dsimp only at hmatch
    injection hmatch with hmatch2
    rw [Prod.mk.injEq] at hmatch2
    obtain ⟨hdid, hlinks⟩ := hmatch2
    subst hdid
    subst hlinks
    unfold build_one_path at hb
    cases hfl : first_link src with
    | none =>
      rw [hfl] at hb
      exact WalkRes.noConfusion hb
    | some l0 =>
      rw [hfl] at hb
      dsimp only at hb
      cases hl0d : l0.dest with
      | none =>
        rw [hl0d] at hb
        exact WalkRes.noConfusion hb
      | some n0 =>
        rw [hl0d] at hb
        dsimp only at hb
        obtain ⟨ls, hres, hre⟩ :=
          reaches_of_walkAux env routes d.physical_id fuel n0 [l0] _ hb
        have hlinks_eq : links2 = l0 :: ls := by
          rw [hres]
          rfl
        have hsrc_env : src ∈ env := List.mem_of_mem_filter hsrcmem
        have hdests : destsOf links2 = n0 :: destsOf ls := by
          rw [hlinks_eq]
          exact destsOf_cons _ _ _ hl0d
        have hn0mem : n0 ∈ nodeIds env :=
          wfEnv_dest_mem hwf hsrc_env (first_link_mem hfl) hl0d
        refine ⟨src, l0, ls, n0, hsrc_env, rfl, hfl, hlinks_eq, hl0d, hre,
          ?_, ?_, ?_⟩
        · rw [hdests]
          exact reaches_getLast env routes d.physical_id hre
        · rw [hdests]
          exact reaches_nodup env routes d.physical_id hre
        · have hnd : (n0 :: destsOf ls).Nodup :=
            reaches_nodup env routes d.physical_id hre
          have hsub : (n0 :: destsOf ls) ⊆ nodeIds env := by
            intro x hx
            rcases List.mem_cons.1 hx with h1 | h2
            · subst h1
              exact hn0mem
            · exact reaches_dests_mem env routes d.physical_id hwf hre x h2
          have hle := (hnd.subperm hsub).length_le
          have hlen := reaches_destsOf_length env routes d.physical_id hre
          rw [hlinks_eq]
          simp only [List.length_cons, nodeIds, List.length_map] at hle ⊢
          omega

/-- The walk-properties theorem at the concrete completed pair (D, S) of
`envC2`. -/
theorem c2_witness :
    wfEnvB envC2 = true ∧
    ("D", [("S", [mkLink 3 1 2 (some "S") "D" "S"])]) ∈
      build_paths envC2 routesC2 5 ∧
    ("S", [mkLink 3 1 2 (some "S") "D" "S"]) ∈
      [("S", [mkLink 3 1 2 (some "S") "D" "S"])] ∧
    (∃ src l0 ls n0,
      src ∈ envC2 ∧ src.physical_id = "D" ∧
      first_link src = some l0 ∧
      [mkLink 3 1 2 (some "S") "D" "S"] = l0 :: ls ∧
      l0.dest = some n0 ∧
      Reaches envC2 routesC2 "S" n0 ls ∧
      (destsOf [mkLink 3 1 2 (some "S") "D" "S"]).getLast? = some "S" ∧
      (destsOf [mkLink 3 1 2 (some "S") "D" "S"]).Nodup ∧
      [mkLink 3 1 2 (some "S") "D" "S"].length ≤ envC2.length) :=
  ⟨by decide, by decide, by decide,
    c2_path_walk_properties envC2 routesC2 5 "D" "S"
      [("S", [mkLink 3 1 2 (some "S") "D" "S"])]
      [mkLink 3 1 2 (some "S") "D" "S"]
      (by decide) (by decide) (by decide)⟩

/-! ## Termination of the replay loop (towards C3) -/

/-- Running out of fuel is exactly "the loop is still running after that
many iterations", and does not depend on the accumulator. -/
theorem walkAux_outOfFuel_iff (env : List UNode) (routes : List RouteTable)
    (dst : String) :
    ∀ (fuel : ℕ) (cur : String) (acc : List PhysLink),
      walkAux env routes dst fuel cur acc = .outOfFuel ↔
        (runsAt env routes dst fuel cur).isSome := by
  intro fuel
  induction fuel with
  | zero => intro cur acc; simp [walkAux, runsAt]
  | succ f ih =>
    intro cur acc
    unfold walkAux runsAt nextCur
    by_cases hc : cur = dst
    · rw [if_pos hc, if_pos hc]
      simp
    · rw [if_neg hc, if_neg hc]
      generalize lookupRoutePort routes cur dst = rp
      cases rp with
      | none => simp
      | some port =>
        dsimp only
        generalize routedLink env cur port = rl
        cases rl with
        | none => simp
        | some link =>
          dsimp only
          generalize link.dest = ld
          cases ld with
          | none => simp
          | some nxt =>
            dsimp only
            exact ih nxt (link :: acc)

/-- Splitting a run: `a + b` iterations are `a` iterations and then `b`
more from wherever the loop stands. -/
theorem runsAt_add (env : List UNode) (routes : List RouteTable) (dst : String) :
    ∀ (a b : ℕ) (cur : String),
      runsAt env routes dst (a + b) cur =
        (runsAt env routes dst a cur).bind (runsAt env routes dst b) := by
  intro a
  induction a with
  | zero =>
    intro b cur
    rw [Nat.zero_add]
    rfl
  | succ a ih =>
    intro b cur
    rw [Nat.succ_add]
    cases hn : nextCur env routes dst cur with
    | none =>
      show (match nextCur env routes dst cur with
        | none => none
        | some nxt => runsAt env routes dst (a + b) nxt) =
        (match nextCur env routes dst cur with
          | none => none
          | some nxt => runsAt env routes dst a nxt).bind
          (runsAt env routes dst b)
      rw [hn]
      rfl
    | some nxt =>
      show (match nextCur env routes dst cur with
        | none => none
        | some nxt => runsAt env routes dst (a + b) nxt) =
        (match nextCur env routes dst cur with
          | none => none
          | some nxt => runsAt env routes dst a nxt).bind
          (runsAt env routes dst b)
      rw [hn]
      exact ih b nxt

/-- If the loop is still running after `t` iterations it was still running
after any earlier count. -/
theorem runsAt_isSome_of_le (env : List UNode) (routes : List RouteTable)
    (dst : String) {s t : ℕ} (hst : s ≤ t) {cur : String}
    (h : (runsAt env routes dst t cur).isSome) :
    (runsAt env routes dst s cur).isSome := by
  have hadd : t = s + (t - s) := by omega
  rw [hadd, runsAt_add] at h
  cases hs : runsAt env routes dst s cur with
  | none =>
    rw [hs] at h
    exact absurd h (by simp)
  | some c => simp

/-- Under well-formedness one loop step lands on a table identifier. -/
theorem nextCur_mem (env : List UNode) (routes : List RouteTable) (dst : String)
    (hwf : wfEnvB env = true) {cur nxt : String}
    (h : nextCur env routes dst cur = some nxt) : nxt ∈ nodeIds env := by
  unfold nextCur at h
  by_cases hc : cur = dst
  · rw [if_pos hc] at h
    exact Option.noConfusion h
  · rw [if_neg hc] at h
    cases hr : lookupRoutePort routes cur dst with
    | none =>
      rw [hr] at h
      exact Option.noConfusion h
    | some port =>
      rw [hr] at h
      dsimp only at h
      cases hl : routedLink env cur port with
      | none =>
        rw [hl] at h
        exact Option.noConfusion h
      | some link =>
        rw [hl] at h
        dsimp only at h
        obtain ⟨n, hn, hm⟩ := routedLink_mem hl
        exact wfEnv_dest_mem hwf hn hm h

/-- Under well-formedness a still-running loop stands on a table
identifier (given it started on one). -/
theorem runsAt_mem (env : List UNode) (routes : List RouteTable) (dst : String)
    (hwf : wfEnvB env = true) :
    ∀ (t : ℕ) {cur c : String}, cur ∈ nodeIds env →
      runsAt env routes dst t cur = some c → c ∈ nodeIds env := by
  intro t
  induction t with
  | zero =>
    intro cur c hcur h
    have h2 : some cur = some c := h
    injection h2 with h3
    rw [← h3]
    exact hcur
  | succ t ih =>
    intro cur c hcur h
    have h2 : (match nextCur env routes dst cur with
        | none => none
        | some nxt => runsAt env routes dst t nxt) = some c := h
    cases hn : nextCur env routes dst cur with
    | none =>
      rw [hn] at h2
      exact Option.noConfusion h2
    | some nxt =>
      rw [hn] at h2
      exact ih (nextCur_mem env routes dst hwf hn) h2

/-- Pigeonhole: a loop still running after (number of nodes + 1)
iterations has revisited some node, and by additivity of `runsAt` it then
runs forever. -/
theorem runsAt_forever (env : List UNode) (routes : List RouteTable)
    (dst : String) (hwf : wfEnvB env = true) {cur : String}
    (hcur : cur ∈ nodeIds env)
    (h : (runsAt env routes dst (env.length + 1) cur).isSome) :
    ∀ t, (runsAt env routes dst t cur).isSome := by
  have hval : ∀ a : ℕ, a ≤ env.length + 1 →
      ∃ c, runsAt env routes dst a cur = some c ∧ c ∈ nodeIds env := by
    intro a ha
    have hs := runsAt_isSome_of_le env routes dst ha h
    obtain ⟨c, hc⟩ := Option.isSome_iff_exists.1 hs
    exact ⟨c, hc, runsAt_mem env routes dst hwf a hcur hc⟩
  have hmain : ∀ (a b : ℕ), a < b → b ≤ env.length + 1 →
      (runsAt env routes dst a cur).getD "" =
        (runsAt env routes dst b cur).getD "" →
      ∀ t, (runsAt env routes dst t cur).isSome := by
    intro a b hab hbN hvaleq t
    obtain ⟨c, hc, -⟩ := hval a (by omega)
    obtain ⟨c2, hc2, -⟩ := hval b (by omega)
    rw [hc, hc2] at hvaleq
    simp only [Option.getD_some] at hvaleq
    subst hvaleq
    have hshift := runsAt_add env routes dst a (b - a) cur
    rw [show a + (b - a) = b from by omega] at hshift
    rw [hc, hc2, Option.some_bind] at hshift
    have hper : ∀ k, runsAt env routes dst (k * (b - a)) c = some c := by
      intro k
      induction k with
      | zero =>
        rw [Nat.zero_mul]
        rfl
      | succ k ihk =>
        rw [Nat.succ_mul, runsAt_add, ihk, Option.some_bind]
        exact hshift.symm
    have hbig : (runsAt env routes dst (a + t * (b - a)) cur).isSome := by
      rw [runsAt_add, hc, Option.some_bind, hper t]
      rfl
    have hle : t ≤ a + t * (b - a) := by
      have h1 : t * 1 ≤ t * (b - a) := Nat.mul_le_mul_left t (by omega)
      omega
    exact runsAt_isSome_of_le env routes dst hle hbig
  have hcard : ((nodeIds env).toFinset).card <
      (Finset.univ : Finset (Fin (env.length + 2))).card := by
    have h1 : ((nodeIds env).toFinset).card ≤ (nodeIds env).length :=
      List.toFinset_card_le _
    have h2 : (nodeIds env).length = env.length := List.length_map _ _
    rw [Finset.card_univ, Fintype.card_fin]
    omega
  have hmap : ∀ i : Fin (env.length + 2), i ∈ Finset.univ →
      (runsAt env routes dst i.val cur).getD "" ∈ (nodeIds env).toFinset := by
    intro i _
    obtain ⟨c, hc, hcm⟩ := hval i.val (by have := i.isLt; omega)
    rw [hc]
    simpa using hcm
  obtain ⟨i, -, j, -, hij, hfeq⟩ :=
    Finset.exists_ne_map_eq_of_card_lt_of_maps_to hcard hmap
  rcases Nat.lt_or_ge i.val j.val with hlt | hge
  · exact hmain i.val j.val hlt (by have := j.isLt; omega) hfeq
  · have hlt2 : j.val < i.val := by
      rcases Nat.lt_or_ge j.val i.val with h1 | h2
      · exact h1
      · exact absurd (Fin.ext (by omega)) hij
    exact hmain j.val i.val hlt2 (by have := i.isLt; omega) hfeq.symm

/-- In `envC3`/`routesC3` both switches forward D-traffic to each other:
from either of them the loop runs out of any fuel, whatever was
accumulated. -/
theorem c3_divergence_aux :
    ∀ (fuel : ℕ) (acc : List PhysLink),
      walkAux envC3 routesC3 "D" fuel "A" acc = .outOfFuel ∧
      walkAux envC3 routesC3 "D" fuel "B" acc = .outOfFuel := by
  intro fuel
  induction fuel with
  | zero => intro acc; exact ⟨rfl, rfl⟩
  | succ f ih =>
    intro acc
    constructor
    · show walkAux envC3 routesC3 "D" f "B"
        (mkLink 1 1 1 (some "B") "A" "B" :: acc) = .outOfFuel
      exact (ih _).2
    · show walkAux envC3 routesC3 "D" f "A"
        (mkLink 2 1 1 (some "A") "B" "A" :: acc) = .outOfFuel
      exact (ih _).1

/-- C3 counterexample: the concrete cyclic routing store makes the replay
of the pair (S, D) run out of every fuel — the C `while` loop never
terminates on this input. -/
theorem c3_counterexample_divergence : divergesAt envC3 routesC3 "S" "D" := by
  intro fuel
  show walkAux envC3 routesC3 "D" fuel "A"
    [mkLink 0 1 1 (some "A") "S" "A"] = .outOfFuel
  exact (c3_divergence_aux fuel _).1

/-- C3.  The replay of one pair terminates for some fuel if and only if
it terminates within (number of nodes + 2) iterations: more fuel than
that never helps, because a loop still running then has revisited a node
and, the iteration being a function of the current node, cycles forever.
In particular `build_paths` does not terminate on every input. -/
theorem c3_termination_iff_bounded_fuel (env : List UNode)
    (routes : List RouteTable) (src : UNode) (dst : String)
    (hwf : wfEnvB env = true) (hsrc : src ∈ env) :
    (∃ fuel, build_one_path env routes src dst fuel ≠ .outOfFuel) ↔
      build_one_path env routes src dst (env.length + 2) ≠ .outOfFuel := by
  cases hfl : first_link src with
  | none =>
    have hb : ∀ fuel, build_one_path env routes src dst fuel = .crashed := by
      intro fuel
      unfold build_one_path
      rw [hfl]
    constructor
    · intro _
      rw [hb]
      exact fun hcon => WalkRes.noConfusion hcon
    · intro _
      refine ⟨0, ?_⟩
      rw [hb]
      exact fun hcon => WalkRes.noConfusion hcon
  | some l0 =>
    cases hd : l0.dest with
    | none =>
      have hb : ∀ fuel, build_one_path env routes src dst fuel = .crashed := by
        intro fuel
        unfold build_one_path
        rw [hfl]
        dsimp only
        rw [hd]
      constructor
      · intro _
        rw [hb]
        exact fun hcon => WalkRes.noConfusion hcon
      · intro _
        refine ⟨0, ?_⟩
        rw [hb]
        exact fun hcon => WalkRes.noConfusion hcon
    | some n0 =>
      have hb : ∀ fuel, build_one_path env routes src dst fuel =
          walkAux env routes dst fuel n0 [l0] := by
        intro fuel
        unfold build_one_path
        rw [hfl]
        dsimp only
        rw [hd]
      have hn0 : n0 ∈ nodeIds env :=
        wfEnv_dest_mem hwf hsrc (first_link_mem hfl) hd
      constructor
      · rintro ⟨fuel, hfuel⟩ hcon
        rw [hb, walkAux_outOfFuel_iff] at hcon
        have h1 : (runsAt env routes dst (env.length + 1) n0).isSome :=
          runsAt_isSome_of_le env routes dst (by omega) hcon
        refine hfuel ?_
        rw [hb]
        exact (walkAux_outOfFuel_iff env routes dst fuel n0 [l0]).2
          (runsAt_forever env routes dst hwf hn0 h1 fuel)
      · intro hcon
        exact ⟨env.length + 2, hcon⟩

/-- The termination-bound theorem at a concrete source and an empty route
store (where the bounded replay is `incomplete`, not out of fuel). -/
theorem c3_witness :
    wfEnvB envC10 = true ∧
    (mkNode "S" .host "s" [mkEdge "A" [0]]
      [mkLink 0 1 1 (some "A") "S" "A"]) ∈ envC10 ∧
    ((∃ fuel, build_one_path envC10 []
        (mkNode "S" .host "s" [mkEdge "A" [0]]
          [mkLink 0 1 1 (some "A") "S" "A"]) "D" fuel ≠ .outOfFuel) ↔
      build_one_path envC10 []
        (mkNode "S" .host "s" [mkEdge "A" [0]]
          [mkLink 0 1 1 (some "A") "S" "A"]) "D"
        (envC10.length + 2) ≠ .outOfFuel) :=
  ⟨by decide, by decide,
    c3_termination_iff_bounded_fuel envC10 []
      (mkNode "S" .host "s" [mkEdge "A" [0]]
        [mkLink 0 1 1 (some "A") "S" "A"]) "D"
      (by decide) (by decide)⟩

end NetlocIB
